import Mathlib

/-!
Verification development for the AstroDynamics engine core
(`src/BarnesHut.h` and `src/main.cpp`).

The embedding is shallow and exact: `sf::Vector2f` becomes a pair of
rationals, `float` arithmetic becomes exact `ℚ` arithmetic, and
`std::sqrt` is threaded through as an explicit function parameter
`sqrtQ : ℚ → ℚ` so that force formulas keep the source's shape.
The recursion of `QuadTreeNode::insert` (which is not structural because
`subdivide` re-inserts into the same node) is made total with an explicit
fuel parameter; `none` models a computation that has not terminated
within the given fuel.  Pointer identity of particles (the tree stores
`const Particle*` into the caller's vector) is modelled by value identity
of the particle records, which coincides with pointer identity whenever
the build terminates (all positions pairwise distinct).
-/

/-- Two-dimensional vector over `ℚ`, modelling `sf::Vector2f`. -/
structure Vec2 where
  x : ℚ
  y : ℚ
deriving DecidableEq, Repr

instance : Add Vec2 := ⟨fun a b => ⟨a.x + b.x, a.y + b.y⟩⟩
instance : Sub Vec2 := ⟨fun a b => ⟨a.x - b.x, a.y - b.y⟩⟩
instance : Neg Vec2 := ⟨fun a => ⟨-a.x, -a.y⟩⟩
instance : Zero Vec2 := ⟨⟨0, 0⟩⟩
instance : HMul Vec2 ℚ Vec2 := ⟨fun v c => ⟨v.x * c, v.y * c⟩⟩
instance : HMul ℚ Vec2 Vec2 := ⟨fun c v => ⟨c * v.x, c * v.y⟩⟩
instance : HDiv Vec2 ℚ Vec2 := ⟨fun v c => ⟨v.x / c, v.y / c⟩⟩
instance : Inhabited Vec2 := ⟨⟨0, 0⟩⟩

/-- Particle record from `main.cpp` (rendering-only fields `color`, `name`
and `trail` are omitted; they are never read by the force/integration
core). -/
structure Particle where
  position : Vec2
  velocity : Vec2
  acceleration : Vec2
  mass : ℚ
  fixed : Bool
deriving DecidableEq, Repr

instance : Inhabited Particle := ⟨⟨0, 0, 0, 0, false⟩⟩

/-- Axis-aligned square region, `QuadTreeNode::Boundary`. -/
structure Boundary where
  center : Vec2
  halfSize : ℚ
deriving DecidableEq, Repr

/-- Inclusive box test, `Boundary::contains`. -/
def Boundary.contains (b : Boundary) (point : Vec2) : Bool :=
  decide (b.center.x - b.halfSize ≤ point.x) && decide (point.x ≤ b.center.x + b.halfSize) &&
  decide (b.center.y - b.halfSize ≤ point.y) && decide (point.y ≤ b.center.y + b.halfSize)

/-- Separating-axis test, `Boundary::intersects`. -/
def Boundary.intersects (b other : Boundary) : Bool :=
  ! (decide (other.center.x - other.halfSize > b.center.x + b.halfSize) ||
     decide (other.center.x + other.halfSize < b.center.x - b.halfSize) ||
     decide (other.center.y - other.halfSize > b.center.y + b.halfSize) ||
     decide (other.center.y + other.halfSize < b.center.y - b.halfSize))

/-- Strict containment in the open box (used to state the spec's
"strictly contains" wording; the source itself only has the inclusive
`contains`). -/
def Boundary.strictContains (b : Boundary) (point : Vec2) : Prop :=
  b.center.x - b.halfSize < point.x ∧ point.x < b.center.x + b.halfSize ∧
  b.center.y - b.halfSize < point.y ∧ point.y < b.center.y + b.halfSize

instance (b : Boundary) (p : Vec2) : Decidable (b.strictContains p) := by
  unfold Boundary.strictContains; infer_instance

/-- `QuadTreeNode`.  A node is a leaf (null children in the source) or an
internal node with exactly four children.  Both constructors carry the
`particles` vector, the cached `centerOfMass` and `totalMass`, mirroring
the C++ fields; `isLeaf` is the constructor tag. -/
inductive QuadTreeNode : Type where
  | leaf (boundary : Boundary) (particles : List Particle)
      (centerOfMass : Vec2) (totalMass : ℚ)
  | internal (boundary : Boundary) (particles : List Particle)
      (centerOfMass : Vec2) (totalMass : ℚ)
      (c0 c1 c2 c3 : QuadTreeNode)
deriving DecidableEq, Repr

def QuadTreeNode.boundary : QuadTreeNode → Boundary
  | .leaf b _ _ _ => b
  | .internal b _ _ _ _ _ _ _ => b

def QuadTreeNode.particles : QuadTreeNode → List Particle
  | .leaf _ ps _ _ => ps
  | .internal _ ps _ _ _ _ _ _ => ps

def QuadTreeNode.centerOfMass : QuadTreeNode → Vec2
  | .leaf _ _ com _ => com
  | .internal _ _ com _ _ _ _ _ => com

def QuadTreeNode.totalMass : QuadTreeNode → ℚ
  | .leaf _ _ _ m => m
  | .internal _ _ _ m _ _ _ _ => m

def QuadTreeNode.isInternal : QuadTreeNode → Bool
  | .leaf _ _ _ _ => false
  | .internal _ _ _ _ _ _ _ _ => true

/-- Freshly constructed node (`QuadTreeNode(const Boundary&)`):
a leaf with no particles, default-initialised `centerOfMass = (0,0)` and
`totalMass = 0`. -/
def emptyLeaf (b : Boundary) : QuadTreeNode :=
  .leaf b [] ⟨0, 0⟩ 0

/-- Maximum particles per leaf node (`MAX_PARTICLES`). -/
def MAX_PARTICLES : Nat := 1

/-- The four child boundaries created by `subdivide`, in source order
NE, NW, SE, SW (screen coordinates, y grows downward). -/
def quadrants (b : Boundary) : Boundary × Boundary × Boundary × Boundary :=
  let newHalfSize := b.halfSize * (1/2)
  (⟨b.center + ⟨newHalfSize, -newHalfSize⟩, newHalfSize⟩,
   ⟨b.center + ⟨-newHalfSize, -newHalfSize⟩, newHalfSize⟩,
   ⟨b.center + ⟨newHalfSize, newHalfSize⟩, newHalfSize⟩,
   ⟨b.center + ⟨-newHalfSize, newHalfSize⟩, newHalfSize⟩)

mutual

/-- `QuadTreeNode::insert`.  Returns the updated node together with the
C++ boolean result; `none` means the fuel ran out (the C++ recursion has
not terminated within `fuel` steps). -/
def QuadTreeNode.insert : Nat → QuadTreeNode → Particle → Option (QuadTreeNode × Bool)
  | 0, _, _ => none
  | fuel + 1, t, p =>
    if t.boundary.contains p.position then
      match t with
      | .leaf b ps com m =>
        if ps.length < MAX_PARTICLES then
          some (.leaf b (ps ++ [p]) com m, true)
        else
          match QuadTreeNode.subdivide fuel b ps com m with
          | none => none
          | some t2 => QuadTreeNode.insert fuel t2 p
      | .internal b ps com m c0 c1 c2 c3 =>
        match QuadTreeNode.insert4 fuel c0 c1 c2 c3 p with
        | none => none
        | some (d0, d1, d2, d3, accepted) =>
          some (.internal b ps com m d0 d1 d2 d3, accepted)
    else
      some (t, false)

/-- The `for (auto& child : children) if (child->insert(p)) ...` loop:
children are tried in order, threading the (possibly mutated) children
through failed attempts, stopping at the first acceptance. -/
def QuadTreeNode.insert4 : Nat → QuadTreeNode → QuadTreeNode → QuadTreeNode → QuadTreeNode →
    Particle → Option (QuadTreeNode × QuadTreeNode × QuadTreeNode × QuadTreeNode × Bool)
  | 0, _, _, _, _, _ => none
  | fuel + 1, c0, c1, c2, c3, p =>
    match QuadTreeNode.insert fuel c0 p with
    | none => none
    | some (d0, true) => some (d0, c1, c2, c3, true)
    | some (d0, false) =>
      match QuadTreeNode.insert fuel c1 p with
      | none => none
      | some (d1, true) => some (d0, d1, c2, c3, true)
      | some (d1, false) =>
        match QuadTreeNode.insert fuel c2 p with
        | none => none
        | some (d2, true) => some (d0, d1, d2, c3, true)
        | some (d2, false) =>
          match QuadTreeNode.insert fuel c3 p with
          | none => none
          | some (d3, accepted) => some (d0, d1, d2, d3, accepted)

/-- `QuadTreeNode::subdivide` applied to a (full) leaf with fields
`b, ps, com, m`: creates the four quadrant children, redistributes the
stored particles into them, clears the particle list and marks the node
internal.  `centerOfMass`/`totalMass` are left untouched by the source. -/
def QuadTreeNode.subdivide : Nat → Boundary → List Particle → Vec2 → ℚ → Option QuadTreeNode
  | 0, _, _, _, _ => none
  | fuel + 1, b, ps, com, m =>
    let q := quadrants b
    match QuadTreeNode.redistribute fuel (emptyLeaf q.1) (emptyLeaf q.2.1)
        (emptyLeaf q.2.2.1) (emptyLeaf q.2.2.2) ps with
    | none => none
    | some (d0, d1, d2, d3) => some (.internal b [] com m d0 d1 d2 d3)

/-- The redistribution loop of `subdivide`: each stored particle is
offered to the children in order; a particle no child accepts is
silently dropped (the loop ignores the boolean). -/
def QuadTreeNode.redistribute : Nat → QuadTreeNode → QuadTreeNode → QuadTreeNode → QuadTreeNode →
    List Particle → Option (QuadTreeNode × QuadTreeNode × QuadTreeNode × QuadTreeNode)
  | 0, _, _, _, _, _ => none
  | _ + 1, c0, c1, c2, c3, [] => some (c0, c1, c2, c3)
  | fuel + 1, c0, c1, c2, c3, p :: rest =>
    match QuadTreeNode.insert4 fuel c0 c1 c2 c3 p with
    | none => none
    | some (d0, d1, d2, d3, _) => QuadTreeNode.redistribute fuel d0 d1 d2 d3 rest

end

/-- The insertion loop of `QuadTreeNode::build`: `insert(&p)` for every
particle, ignoring the boolean result. -/
def QuadTreeNode.insertAll : Nat → QuadTreeNode → List Particle → Option QuadTreeNode
  | _, t, [] => some t
  | fuel, t, p :: rest =>
    match QuadTreeNode.insert fuel t p with
    | none => none
    | some (t2, _) => QuadTreeNode.insertAll fuel t2 rest

/-- `QuadTreeNode::updateCenterOfMass`.  Note that the source does NOT
recurse into the children: for an internal node it only reads the
children's cached `totalMass`/`centerOfMass` fields as they are. -/
def QuadTreeNode.updateCenterOfMass : QuadTreeNode → QuadTreeNode
  | .leaf b ps _ _ =>
    if ps.isEmpty then
      .leaf b ps b.center 0
    else
      let m := ps.foldl (fun a p => a + p.mass) 0
      let c := ps.foldl (fun a p => a + p.position * p.mass) (0 : Vec2)
      .leaf b ps (c / m) m
  | .internal b ps _ _ c0 c1 c2 c3 =>
    let step := fun (acc : ℚ × Vec2) (c : QuadTreeNode) =>
      if 0 < c.totalMass then (acc.1 + c.totalMass, acc.2 + c.centerOfMass * c.totalMass)
      else acc
    let r := step (step (step (step ((0 : ℚ), (0 : Vec2)) c0) c1) c2) c3
    .internal b ps (if 0 < r.1 then r.2 / r.1 else r.2) r.1 c0 c1 c2 c3

/-- `QuadTreeNode::build`: insert every particle, then run
`updateCenterOfMass` (once, on this node only, as in the source). -/
def QuadTreeNode.build (fuel : Nat) (t : QuadTreeNode) (ps : List Particle) :
    Option QuadTreeNode :=
  (QuadTreeNode.insertAll fuel t ps).map QuadTreeNode.updateCenterOfMass

/-- `QuadTreeNode::computeForce`.  Returns the force contribution that
the C++ code adds into the accumulator.  `sqrtQ` stands for `std::sqrt`.
The guard `&particle == particles.front() && particles.size() == 1` is
modelled by `head? = some q ∧ length = 1` (pointer identity as value
identity; `head?` of an empty list is `none`, matching the observable
behaviour of the source, where the `size() == 1` conjunct rejects the
empty case whatever the out-of-bounds `front()` read returns). -/
def QuadTreeNode.computeForce (sqrtQ : ℚ → ℚ) (theta G softening : ℚ) (q : Particle) :
    QuadTreeNode → Vec2
  | .leaf _ ps _ m =>
    if m = 0 ∨ (ps.head? = some q ∧ ps.length = 1) then 0
    else
      ps.foldl (fun force p =>
        if p = q then force
        else
          let rij := p.position - q.position
          let r2 := rij.x * rij.x + rij.y * rij.y + softening * softening
          let r3 := r2 * sqrtQ r2
          force + rij * (G * q.mass * p.mass / r3)) 0
  | .internal b ps com m c0 c1 c2 c3 =>
    if m = 0 ∨ (ps.head? = some q ∧ ps.length = 1) then 0
    else
      let r := com - q.position
      let distance := sqrtQ (r.x * r.x + r.y * r.y + softening * softening)
      let s := b.halfSize * 2
      if s / distance < theta then
        let r2 := r.x * r.x + r.y * r.y + softening * softening
        let r3 := r2 * sqrtQ r2
        r * (G * q.mass * m / r3)
      else
        QuadTreeNode.computeForce sqrtQ theta G softening q c0 +
        QuadTreeNode.computeForce sqrtQ theta G softening q c1 +
        QuadTreeNode.computeForce sqrtQ theta G softening q c2 +
        QuadTreeNode.computeForce sqrtQ theta G softening q c3

/-- The bounding-box minimum computed by the fold in
`BarnesHutForceCalculator::computeForces` (started from
`particles[0].position` and folded over all particles). -/
def bboxMin (start : Vec2) (ps : List Particle) : Vec2 :=
  ps.foldl (fun a p => ⟨min a.x p.position.x, min a.y p.position.y⟩) start

/-- The bounding-box maximum, analogously. -/
def bboxMax (start : Vec2) (ps : List Particle) : Vec2 :=
  ps.foldl (fun a p => ⟨max a.x p.position.x, max a.y p.position.y⟩) start

/-- The root boundary chosen by `BarnesHutForceCalculator::computeForces`:
center `(min+max)*0.5`, half-size `max(width, height) * 0.6`; `none` for
the empty input (which returns early). -/
def rootBoundaryOf : List Particle → Option Boundary
  | [] => none
  | p0 :: rest =>
    let ps := p0 :: rest
    let mn := bboxMin p0.position ps
    let mx := bboxMax p0.position ps
    some ⟨(mn + mx) * ((1 : ℚ)/2), max (mx.x - mn.x) (mx.y - mn.y) * (3/5)⟩

/-- `max(width, height)` of the bounding box of a non-empty list (the
quantity scaled by `0.6` to obtain the root half-size). -/
def maxDimOf : List Particle → ℚ
  | [] => 0
  | p0 :: rest =>
    let ps := p0 :: rest
    let mn := bboxMin p0.position ps
    let mx := bboxMax p0.position ps
    max (mx.x - mn.x) (mx.y - mn.y)

/-- The root boundary of a non-empty snapshot, as the calculator
computes it. -/
def rootBoundaryCons (p0 : Particle) (rest : List Particle) : Boundary :=
  ⟨(bboxMin p0.position (p0 :: rest) + bboxMax p0.position (p0 :: rest)) * ((1 : ℚ)/2),
   maxDimOf (p0 :: rest) * (3/5)⟩

/-- `BarnesHutForceCalculator::computeForces`: empty input short-circuits
to an empty result; otherwise build a fresh tree over the margin-padded
bounding box and traverse it once per particle, index-aligned. -/
def BarnesHutForceCalculator.computeForces (sqrtQ : ℚ → ℚ) (fuel : Nat)
    (theta G softening : ℚ) (ps : List Particle) : Option (List Vec2) :=
  match rootBoundaryOf ps with
  | none => some []
  | some rb =>
    match QuadTreeNode.build fuel (emptyLeaf rb) ps with
    | none => none
    | some root =>
      some (ps.map fun q => QuadTreeNode.computeForce sqrtQ theta G softening q root)

/-- The exact O(N²) pairwise reference, `NBodySimulation::computeForces`:
for index `i`, sum the softened pairwise force over all `j ≠ i`. -/
def NBodySimulation.computeForces (sqrtQ : ℚ → ℚ) (G softening : ℚ)
    (ps : List Particle) : List Vec2 :=
  (List.range ps.length).map fun i =>
    (List.range ps.length).foldl (fun force j =>
      if i ≠ j then
        let pi := (ps.get? i).getD default
        let pj := (ps.get? j).getD default
        let r := pj.position - pi.position
        let r2 := r.x * r.x + r.y * r.y + softening * softening
        let r3 := r2 * sqrtQ r2
        force + r * (G * pi.mass * pj.mass / r3)
      else force) 0

/-- `RungeKuttaIntegrator::State`. -/
structure RKState where
  positions : List Vec2
  velocities : List Vec2

/-- `RungeKuttaIntegrator::Derivative`. -/
structure RKDerivative where
  dpos : List Vec2
  dvel : List Vec2

/-- The `tempParticles` snapshot assembled inside
`RungeKuttaIntegrator::evaluate`: a copy of the particle store with
positions and velocities displaced by `d * dt` from `initial`. -/
def RungeKuttaIntegrator.mkTempParticles (initial : RKState) (dt : ℚ)
    (d : RKDerivative) (particles : List Particle) : List Particle :=
  let newPos := List.zipWith (fun (x dx : Vec2) => x + dx * dt) initial.positions d.dpos
  let newVel := List.zipWith (fun (v dv : Vec2) => v + dv * dt) initial.velocities d.dvel
  (particles.zip (newPos.zip newVel)).map fun pc =>
    { pc.1 with position := pc.2.1, velocity := pc.2.2 }

/-- `RungeKuttaIntegrator::evaluate`: derivative of the displaced
hypothetical state; `dpos` is the displaced velocity, `dvel` is
`force / mass` with forces taken on the temporary snapshot. -/
def RungeKuttaIntegrator.evaluate (initial : RKState) (dt : ℚ) (d : RKDerivative)
    (forceFunc : List Particle → List Vec2) (particles : List Particle) : RKDerivative :=
  let temp := RungeKuttaIntegrator.mkTempParticles initial dt d particles
  let newVel := List.zipWith (fun (v dv : Vec2) => v + dv * dt) initial.velocities d.dvel
  { dpos := newVel,
    dvel := List.zipWith (fun F q => F / q.mass) (forceFunc temp) temp }

/-- Index-threaded map used to express the final update loop of
`integrate` (`for i < particles.size()`). -/
def mapWithIndex (f : Nat → α → β) : Nat → List α → List β
  | _, [] => []
  | i, a :: as => f i a :: mapWithIndex f (i + 1) as

/-- `RungeKuttaIntegrator::integrate`: four `evaluate` stages against the
initial snapshot, RK4 weighted combination, applied to every non-fixed
particle (fixed particles are returned untouched). -/
def RungeKuttaIntegrator.integrate (particles : List Particle)
    (forceFunc : List Particle → List Vec2) (dt : ℚ) : List Particle :=
  let initial : RKState := ⟨particles.map (·.position), particles.map (·.velocity)⟩
  let k0 : RKDerivative :=
    ⟨List.replicate particles.length 0, List.replicate particles.length 0⟩
  let k1 := RungeKuttaIntegrator.evaluate initial 0 k0 forceFunc particles
  let k2 := RungeKuttaIntegrator.evaluate initial (dt * (1/2)) k1 forceFunc particles
  let k3 := RungeKuttaIntegrator.evaluate initial (dt * (1/2)) k2 forceFunc particles
  let k4 := RungeKuttaIntegrator.evaluate initial dt k3 forceFunc particles
  mapWithIndex (fun i p =>
    if p.fixed then p
    else
      let dxdt := (k1.dpos.getD i 0 + (2 : ℚ) * k2.dpos.getD i 0 +
        (2 : ℚ) * k3.dpos.getD i 0 + k4.dpos.getD i 0) / (6 : ℚ)
      let dvdt := (k1.dvel.getD i 0 + (2 : ℚ) * k2.dvel.getD i 0 +
        (2 : ℚ) * k3.dvel.getD i 0 + k4.dvel.getD i 0) / (6 : ℚ)
      { p with position := p.position + dxdt * dt,
               velocity := p.velocity + dvdt * dt,
               acceleration := dvdt }) 0 particles

/-- Specification-side RK4 derivative of a particle snapshot, following
the spec's words: derivative = `(velocity, force/mass)`. -/
def specDeriv (forceFunc : List Particle → List Vec2) (ps : List Particle) :
    List Vec2 × List Vec2 :=
  (ps.map (·.velocity), List.zipWith (fun F q => F / q.mass) (forceFunc ps) ps)

/-- Specification-side displaced snapshot: the particle list with
positions and velocities displaced by `h` times a previous derivative
sample. -/
def specShift (ps : List Particle) (h : ℚ) (d : List Vec2 × List Vec2) : List Particle :=
  (ps.zip (d.1.zip d.2)).map fun pc =>
    { pc.1 with position := pc.1.position + pc.2.1 * h,
                velocity := pc.1.velocity + pc.2.2 * h }

/-- Swap the entries at positions `i` and `j` of a list (identity when an
index is out of range). -/
def swapL (l : List α) (i j : Nat) : List α :=
  match l.get? i, l.get? j with
  | some a, some b => (l.set i b).set j a
  | _, _ => l

/-- Multiset of particles stored in the subtree (concatenated in node
order). -/
def QuadTreeNode.content : QuadTreeNode → List Particle
  | .leaf _ ps _ _ => ps
  | .internal _ ps _ _ c0 c1 c2 c3 =>
    ps ++ (c0.content ++ (c1.content ++ (c2.content ++ c3.content)))

/-- All cached `totalMass` fields in the tree are still at their
default value `0` (as they are at any point between node construction
and the root-level `updateCenterOfMass`, which the source never applies
to children). -/
def QuadTreeNode.pristine : QuadTreeNode → Prop
  | .leaf _ _ _ m => m = 0
  | .internal _ _ _ m c0 c1 c2 c3 =>
    m = 0 ∧ c0.pristine ∧ c1.pristine ∧ c2.pristine ∧ c3.pristine

/-- Structural well-formedness of a tree as produced by insertion:
leaves respect the capacity and store only contained particles, internal
nodes have an empty particle list and quadrant children. -/
inductive WF : QuadTreeNode → Prop where
  | leaf : ∀ (b : Boundary) (ps : List Particle) (com : Vec2) (m : ℚ),
      ps.length ≤ MAX_PARTICLES →
      (∀ p ∈ ps, b.contains p.position = true) →
      0 ≤ b.halfSize →
      WF (.leaf b ps com m)
  | internal : ∀ (b : Boundary) (com : Vec2) (m : ℚ) (c0 c1 c2 c3 : QuadTreeNode),
      0 ≤ b.halfSize →
      c0.boundary = (quadrants b).1 →
      c1.boundary = (quadrants b).2.1 →
      c2.boundary = (quadrants b).2.2.1 →
      c3.boundary = (quadrants b).2.2.2 →
      WF c0 → WF c1 → WF c2 → WF c3 →
      WF (.internal b [] com m c0 c1 c2 c3)

/-- Every leaf of the tree holds at most `MAX_PARTICLES` particles. -/
def QuadTreeNode.leavesSmall : QuadTreeNode → Prop
  | .leaf _ ps _ _ => ps.length ≤ MAX_PARTICLES
  | .internal _ _ _ _ c0 c1 c2 c3 =>
    c0.leavesSmall ∧ c1.leavesSmall ∧ c2.leavesSmall ∧ c3.leavesSmall

/-- Chebyshev distance of two points, the metric matched to the square
cells of the quadtree. -/
def dinf (u v : Vec2) : ℚ :=
  max |u.x - v.x| |u.y - v.y|

/-- Instrumented traversal mirroring the control flow of
`computeForce`; returns `true` exactly when some visited node evaluates
`particles.front()` on an empty particle vector (which the C++ guard
does whenever `totalMass != 0`, before checking the size). -/
def QuadTreeNode.readsFrontOfEmpty (sqrtQ : ℚ → ℚ) (theta G softening : ℚ)
    (q : Particle) : QuadTreeNode → Bool
  | .leaf _ ps _ m =>
    if m = 0 then false
    else if ps.isEmpty then true
    else false
  | .internal b ps com m c0 c1 c2 c3 =>
    if m = 0 then false
    else if ps.isEmpty then true
    else if ps.head? = some q ∧ ps.length = 1 then false
    else
      let r := com - q.position
      let distance := sqrtQ (r.x * r.x + r.y * r.y + softening * softening)
      if (b.halfSize * 2) / distance < theta then false
      else
        c0.readsFrontOfEmpty sqrtQ theta G softening q ||
        c1.readsFrontOfEmpty sqrtQ theta G softening q ||
        c2.readsFrontOfEmpty sqrtQ theta G softening q ||
        c3.readsFrontOfEmpty sqrtQ theta G softening q

/-! Concrete evaluation inputs used by witnesses and counterexamples. -/

/-- Unit-mass particle at `(-1, 0)`. -/
def pA : Particle := ⟨⟨-1, 0⟩, 0, 0, 1, false⟩

/-- Unit-mass particle at `(1, 0)`. -/
def pB : Particle := ⟨⟨1, 0⟩, 0, 0, 1, false⟩

/-- A root boundary containing both `pA` and `pB`. -/
def b0 : Boundary := ⟨⟨0, 0⟩, 4⟩

/-- The tree produced by `build` on `[pA, pB]` over `b0` (computed by
evaluation; note every cached mass is still `0`). -/
def Tsplit : QuadTreeNode :=
  .internal b0 [] ⟨0, 0⟩ 0
    (.leaf ⟨⟨2, -2⟩, 2⟩ [pB] ⟨0, 0⟩ 0)
    (.leaf ⟨⟨-2, -2⟩, 2⟩ [pA] ⟨0, 0⟩ 0)
    (.leaf ⟨⟨2, 2⟩, 2⟩ [] ⟨0, 0⟩ 0)
    (.leaf ⟨⟨-2, 2⟩, 2⟩ [] ⟨0, 0⟩ 0)

/-- A stand-in for `std::sqrt` whose value is `5` everywhere; the
concrete inputs below only ever query it at `25`. -/
def sqrt5 : ℚ → ℚ := fun _ => 5

/-- Unit-mass particle at the origin. -/
def pC : Particle := ⟨⟨0, 0⟩, 0, 0, 1, false⟩

/-- Unit-mass particle at `(3, 0)`; with `softening = 4` the pairwise
softened distance of `pC` and `pD` is exactly `5`. -/
def pD : Particle := ⟨⟨3, 0⟩, 0, 0, 1, false⟩

/-- Particle with mass `0` (invalid input for the integrator). -/
def pZ : Particle := ⟨⟨0, 0⟩, ⟨1, 0⟩, 0, 0, false⟩

/-- A constant force field returning `(1, 0)` for every particle. -/
def fC : List Particle → List Vec2 := fun l => l.map (fun _ => ⟨1, 0⟩)

/-- A single particle at `(1, 2)`; its bounding box is degenerate. -/
def pS : Particle := ⟨⟨1, 2⟩, 0, 0, 1, false⟩

/-- A fixed particle (like the pinned central body of a scenario). -/
def pF : Particle := ⟨⟨0, 0⟩, 0, 0, 5, true⟩

/-- The tree built over `[pA, pB]` from the calculator's own root
boundary for that snapshot (computed by evaluation). -/
def TsplitAB : QuadTreeNode :=
  .internal ⟨⟨0, 0⟩, 6/5⟩ [] ⟨0, 0⟩ 0
    (.leaf ⟨⟨3/5, -3/5⟩, 3/5⟩ [pB] ⟨0, 0⟩ 0)
    (.leaf ⟨⟨-3/5, -3/5⟩, 3/5⟩ [pA] ⟨0, 0⟩ 0)
    (.leaf ⟨⟨3/5, 3/5⟩, 3/5⟩ [] ⟨0, 0⟩ 0)
    (.leaf ⟨⟨-3/5, 3/5⟩, 3/5⟩ [] ⟨0, 0⟩ 0)

/-- The tree produced by `build` on `[pC, pD]` over the root boundary the
calculator derives for them (computed by evaluation; cached masses all
`0`). -/
def TsplitCD : QuadTreeNode :=
  .internal ⟨⟨3/2, 0⟩, 9/5⟩ [] ⟨0, 0⟩ 0
    (.leaf ⟨⟨12/5, -9/10⟩, 9/10⟩ [pD] ⟨0, 0⟩ 0)
    (.leaf ⟨⟨3/5, -9/10⟩, 9/10⟩ [pC] ⟨0, 0⟩ 0)
    (.leaf ⟨⟨12/5, 9/10⟩, 9/10⟩ [] ⟨0, 0⟩ 0)
    (.leaf ⟨⟨3/5, 9/10⟩, 9/10⟩ [] ⟨0, 0⟩ 0)

/-! Unfolding lemmas for the `Vec2` arithmetic instances (used to let
`simp`/`norm_num` evaluate the embedded programs on concrete inputs). -/

@[simp] theorem Vec2.add_mk (a b c d : ℚ) :
    (⟨a, b⟩ + ⟨c, d⟩ : Vec2) = ⟨a + c, b + d⟩ := rfl

@[simp] theorem Vec2.sub_mk (a b c d : ℚ) :
    (⟨a, b⟩ - ⟨c, d⟩ : Vec2) = ⟨a - c, b - d⟩ := rfl

@[simp] theorem Vec2.neg_mk (a b : ℚ) : (-(⟨a, b⟩ : Vec2)) = ⟨-a, -b⟩ := rfl

@[simp] theorem Vec2.zero_def : (0 : Vec2) = ⟨0, 0⟩ := rfl

@[simp] theorem Vec2.mul_mk (a b c : ℚ) : ((⟨a, b⟩ : Vec2) * c) = ⟨a * c, b * c⟩ := rfl

@[simp] theorem Vec2.smul_mk (a b c : ℚ) : (c * (⟨a, b⟩ : Vec2)) = ⟨c * a, c * b⟩ := rfl

@[simp] theorem Vec2.div_mk (a b c : ℚ) : ((⟨a, b⟩ : Vec2) / c) = ⟨a / c, b / c⟩ := rfl

@[simp] theorem Vec2.x_mk (a b : ℚ) : (⟨a, b⟩ : Vec2).x = a := rfl

@[simp] theorem Vec2.y_mk (a b : ℚ) : (⟨a, b⟩ : Vec2).y = b := rfl

@[simp] theorem Vec2.add_x (a b : Vec2) : (a + b).x = a.x + b.x := rfl

@[simp] theorem Vec2.add_y (a b : Vec2) : (a + b).y = a.y + b.y := rfl

@[simp] theorem Vec2.sub_x (a b : Vec2) : (a - b).x = a.x - b.x := rfl

@[simp] theorem Vec2.sub_y (a b : Vec2) : (a - b).y = a.y - b.y := rfl

@[simp] theorem Vec2.mul_x (a : Vec2) (c : ℚ) : (a * c).x = a.x * c := rfl

@[simp] theorem Vec2.mul_y (a : Vec2) (c : ℚ) : (a * c).y = a.y * c := rfl

@[simp] theorem Vec2.zero_add (v : Vec2) : 0 + v = v := by
  cases v with
  | mk a b => rw [show (0 : Vec2) = (⟨0, 0⟩ : Vec2) from rfl]; simp

@[simp] theorem Vec2.add_zero (v : Vec2) : v + 0 = v := by
  cases v with
  | mk a b => rw [show (0 : Vec2) = (⟨0, 0⟩ : Vec2) from rfl]; simp

/-! Basic lemmas about the geometry primitives. -/

/-- Unfolding characterisation of the inclusive `contains` test. -/
theorem Boundary.contains_iff (b : Boundary) (p : Vec2) :
    b.contains p = true ↔
      (b.center.x - b.halfSize ≤ p.x ∧ p.x ≤ b.center.x + b.halfSize ∧
       b.center.y - b.halfSize ≤ p.y ∧ p.y ≤ b.center.y + b.halfSize) := by
  simp [Boundary.contains, and_assoc]

/-- A node with `totalMass = 0` contributes no force: the first guard of
`computeForce` returns immediately. -/
theorem computeForce_eq_zero_of_totalMass_zero (sqrtQ : ℚ → ℚ)
    (theta G softening : ℚ) (q : Particle) (t : QuadTreeNode)
    (h : t.totalMass = 0) :
    QuadTreeNode.computeForce sqrtQ theta G softening q t = 0 := by
  cases t with
  | leaf b ps com m =>
    simp only [QuadTreeNode.totalMass] at h
    simp [QuadTreeNode.computeForce, h]
  | internal b ps com m c0 c1 c2 c3 =>
    simp only [QuadTreeNode.totalMass] at h
    simp [QuadTreeNode.computeForce, h]


/-! Claim C3: self-force exclusion. -/

/-- C3.  For any particle, the force contributed by the node holding only
that particle is exactly zero: `computeForce` contributes nothing on a
node with `totalMass = 0`, and on a leaf whose sole stored particle is
the query particle itself. -/
theorem c3_self_force_exclusion (sqrtQ : ℚ → ℚ) (theta G softening : ℚ)
    (q : Particle) :
    (∀ t : QuadTreeNode, t.totalMass = 0 →
      QuadTreeNode.computeForce sqrtQ theta G softening q t = 0) ∧
    (∀ (b : Boundary) (com : Vec2) (m : ℚ),
      QuadTreeNode.computeForce sqrtQ theta G softening q (.leaf b [q] com m) = 0) := by
  constructor
  · intro t ht
    exact computeForce_eq_zero_of_totalMass_zero sqrtQ theta G softening q t ht
  · intro b com m
    simp [QuadTreeNode.computeForce]

/-- Witness for C3 at concrete inputs: an empty node and a leaf holding
exactly the query particle both contribute zero force. -/
theorem c3_self_force_exclusion_witness :
    QuadTreeNode.computeForce sqrt5 (1/2) 1 4 pA (emptyLeaf b0) = 0 ∧
    QuadTreeNode.computeForce sqrt5 (1/2) 1 4 pA (.leaf b0 [pA] ⟨0, 0⟩ 1) = 0 :=
  ⟨(c3_self_force_exclusion sqrt5 (1/2) 1 4 pA).1 (emptyLeaf b0) rfl,
   (c3_self_force_exclusion sqrt5 (1/2) 1 4 pA).2 b0 ⟨0, 0⟩ 1⟩

/-- Concrete evaluation: building over `[pA, pB]` yields `Tsplit`. -/
theorem build_eval_Tsplit :
    QuadTreeNode.build 10 (emptyLeaf b0) [pA, pB] = some Tsplit := by
  norm_num [QuadTreeNode.build, QuadTreeNode.insertAll, QuadTreeNode.insert,
    QuadTreeNode.insert4, QuadTreeNode.subdivide, QuadTreeNode.redistribute,
    QuadTreeNode.updateCenterOfMass, QuadTreeNode.boundary, QuadTreeNode.totalMass,
    QuadTreeNode.centerOfMass, emptyLeaf, quadrants, b0, pA, pB,
    Boundary.contains, MAX_PARTICLES, Tsplit]
  rfl

/-! Claim C1: mass conservation in the tree (refuted by evaluation). -/

/-- C1.  Evaluating `build` on a fresh root whose boundary contains both
particles: the root `totalMass` comes out as `0`, not as the mass sum
`2`, because `updateCenterOfMass` never recurses into the children and
the children's cached masses are still `0` when the root aggregates
them. -/
theorem c1_mass_conservation_fails :
    b0.contains pA.position = true ∧ b0.contains pB.position = true ∧
    QuadTreeNode.build 10 (emptyLeaf b0) [pA, pB] = some Tsplit ∧
    Tsplit.totalMass = 0 ∧ pA.mass + pB.mass = 2 ∧
    Tsplit.totalMass ≠ pA.mass + pB.mass := by
  refine ⟨?_, ?_, build_eval_Tsplit, rfl, by norm_num [pA, pB], by norm_num [Tsplit,
    pA, pB, QuadTreeNode.totalMass]⟩
  · rw [Boundary.contains_iff]; norm_num [b0, pA]
  · rw [Boundary.contains_iff]; norm_num [b0, pB]

/-- Concrete evaluation: for any opening angle, the Barnes-Hut force
output on `[pC, pD]` is the all-zero list. -/
theorem bh_eval_theta (theta : ℚ) :
    BarnesHutForceCalculator.computeForces sqrt5 10 theta 1 4 [pC, pD] =
      some [0, 0] := by
  have hroot : rootBoundaryOf [pC, pD] = some ⟨⟨3/2, 0⟩, 9/5⟩ := by
    norm_num [rootBoundaryOf, bboxMin, bboxMax, pC, pD]
  have hbuild : QuadTreeNode.build 10 (emptyLeaf ⟨⟨3/2, 0⟩, 9/5⟩) [pC, pD] =
      some TsplitCD := by
    norm_num [QuadTreeNode.build, QuadTreeNode.insertAll, QuadTreeNode.insert,
      QuadTreeNode.insert4, QuadTreeNode.subdivide, QuadTreeNode.redistribute,
      QuadTreeNode.updateCenterOfMass, QuadTreeNode.boundary, QuadTreeNode.totalMass,
      QuadTreeNode.centerOfMass, emptyLeaf, quadrants, pC, pD,
      Boundary.contains, MAX_PARTICLES, TsplitCD]
    rfl
  have hT : TsplitCD.totalMass = 0 := rfl
  simp only [BarnesHutForceCalculator.computeForces, hroot, hbuild, List.map,
    Option.some.injEq]
  rw [computeForce_eq_zero_of_totalMass_zero _ _ _ _ _ _ hT,
    computeForce_eq_zero_of_totalMass_zero _ _ _ _ _ _ hT]

/-- Concrete evaluation: the same in the swapped insertion order
`[pD, pC]` (the built tree is the same). -/
theorem bh_eval_theta_swapped (theta : ℚ) :
    BarnesHutForceCalculator.computeForces sqrt5 10 theta 1 4 [pD, pC] =
      some [0, 0] := by
  have hroot : rootBoundaryOf [pD, pC] = some ⟨⟨3/2, 0⟩, 9/5⟩ := by
    norm_num [rootBoundaryOf, bboxMin, bboxMax, pC, pD]
  have hbuild : QuadTreeNode.build 10 (emptyLeaf ⟨⟨3/2, 0⟩, 9/5⟩) [pD, pC] =
      some TsplitCD := by
    norm_num [QuadTreeNode.build, QuadTreeNode.insertAll, QuadTreeNode.insert,
      QuadTreeNode.insert4, QuadTreeNode.subdivide, QuadTreeNode.redistribute,
      QuadTreeNode.updateCenterOfMass, QuadTreeNode.boundary, QuadTreeNode.totalMass,
      QuadTreeNode.centerOfMass, emptyLeaf, quadrants, pC, pD,
      Boundary.contains, MAX_PARTICLES, TsplitCD]
    rfl
  have hT : TsplitCD.totalMass = 0 := rfl
  simp only [BarnesHutForceCalculator.computeForces, hroot, hbuild, List.map,
    Option.some.injEq]
  rw [computeForce_eq_zero_of_totalMass_zero _ _ _ _ _ _ hT,
    computeForce_eq_zero_of_totalMass_zero _ _ _ _ _ _ hT]

/-! Claim C2: opening-angle limit (refuted by evaluation). -/

/-- C2.  For every opening angle `theta`, the Barnes-Hut evaluator
returns the zero force for both particles of the two-body configuration
`[pC, pD]`, while the exact pairwise reference returns a nonzero force;
hence no `theta0 > 0` can make the two agree below it.  The traversal is
independent of `theta` because the non-recursive mass aggregation leaves
the root `totalMass` at `0`, so `computeForce` returns at its first
guard. -/
theorem c2_theta_limit_fails (theta : ℚ) :
    BarnesHutForceCalculator.computeForces sqrt5 10 theta 1 4 [pC, pD] =
      some [0, 0] ∧
    NBodySimulation.computeForces sqrt5 1 4 [pC, pD] =
      [⟨3/125, 0⟩, ⟨-3/125, 0⟩] ∧
    (⟨3/125, 0⟩ : Vec2) ≠ 0 := by
  refine ⟨bh_eval_theta theta, ?_, by
    rw [show (0 : Vec2) = (⟨0, 0⟩ : Vec2) from rfl]
    norm_num [Vec2.mk.injEq]⟩
  have h2 : List.range 2 = [0, 1] := rfl
  norm_num [NBodySimulation.computeForces, pC, pD, sqrt5, h2]

/-! Claim C8: no guard against non-positive particle mass. -/

/-- C8.  The integrator accepts a particle of mass `0` and returns
normally: `evaluate` divides the force by the particle mass with no
precondition check and no error path (in the exact model the division by
zero collapses to `0`; in the C++ float semantics it propagates
`Inf`/`NaN`), so the core neither rejects the input nor fails fast. -/
theorem c8_no_mass_guard :
    pZ.mass = 0 ∧
    RungeKuttaIntegrator.integrate [pZ] fC 1 =
      [⟨⟨1, 0⟩, ⟨1, 0⟩, ⟨0, 0⟩, 0, false⟩] := by
  refine ⟨rfl, ?_⟩
  norm_num [RungeKuttaIntegrator.integrate, RungeKuttaIntegrator.evaluate,
    RungeKuttaIntegrator.mkTempParticles, mapWithIndex, pZ, fC,
    List.zipWith, List.zip, List.zipWith_cons_cons, List.replicate]
  rw [show (0 : Vec2) = (⟨0, 0⟩ : Vec2) from rfl]
  norm_num [Vec2.mk.injEq]

/-! Claim C5: the margin-padded root boundary. -/

/-- Counterexample to C5 as stated: for the non-empty particle list
`[pS]` the root boundary built by `computeForces` is the degenerate box
with half-size `0`, which does not STRICTLY contain the particle
position. -/
theorem c5_counterexample_singleton :
    rootBoundaryOf [pS] = some ⟨⟨1, 2⟩, 0⟩ ∧
    ¬ Boundary.strictContains ⟨⟨1, 2⟩, 0⟩ pS.position := by
  constructor
  · norm_num [rootBoundaryOf, bboxMin, bboxMax, pS]
  · norm_num [Boundary.strictContains, pS]

/-! Lemmas relating the integrator plumbing to the specification-side
RK4 formulas. -/

@[simp] theorem Vec2.mul_zero (v : Vec2) : v * (0 : ℚ) = 0 := by
  cases v with
  | mk a b => rw [show (0 : Vec2) = (⟨0, 0⟩ : Vec2) from rfl]; simp

@[simp] theorem Vec2.add_mk_zero (v : Vec2) : v + (⟨0, 0⟩ : Vec2) = v := by
  cases v with
  | mk a b => simp

@[simp] theorem Vec2.mk_zero_add (v : Vec2) : (⟨0, 0⟩ : Vec2) + v = v := by
  cases v with
  | mk a b => simp

/-- The temporary snapshot built by `evaluate` from the initial state of
a particle list is exactly the specification-side displaced snapshot. -/
theorem mkTemp_eq_specShift (ps : List Particle) (h : ℚ) (dp dv : List Vec2) :
    RungeKuttaIntegrator.mkTempParticles
        ⟨ps.map (·.position), ps.map (·.velocity)⟩ h ⟨dp, dv⟩ ps =
      specShift ps h (dp, dv) := by
  induction ps generalizing dp dv with
  | nil => simp [RungeKuttaIntegrator.mkTempParticles, specShift]
  | cons p rest ih =>
    cases dp with
    | nil => simp [RungeKuttaIntegrator.mkTempParticles, specShift]
    | cons x dp2 =>
      cases dv with
      | nil => simp [RungeKuttaIntegrator.mkTempParticles, specShift]
      | cons y dv2 =>
        have := ih dp2 dv2
        simp only [RungeKuttaIntegrator.mkTempParticles, specShift, List.map_cons,
          List.zipWith_cons_cons, List.zip_cons_cons] at this ⊢
        rw [this]

/-- Mapping `velocity` over the displaced snapshot recovers the displaced
velocity list. -/
theorem specShift_map_velocity (ps : List Particle) (h : ℚ) (dp dv : List Vec2)
    (hdp : dp.length = ps.length) :
    (specShift ps h (dp, dv)).map (·.velocity) =
      List.zipWith (fun (v w : Vec2) => v + w * h) (ps.map (·.velocity)) dv := by
  induction ps generalizing dp dv with
  | nil => simp [specShift]
  | cons p rest ih =>
    cases dp with
    | nil => simp at hdp
    | cons x dp2 =>
      cases dv with
      | nil => simp [specShift]
      | cons y dv2 =>
        have hlen : dp2.length = rest.length := by simpa using hdp
        simp only [specShift, List.map_cons, List.zip_cons_cons, List.zipWith_cons_cons]
        rw [← ih dp2 dv2 hlen]
        simp [specShift]

/-- Displacing by a zero time offset returns the snapshot unchanged. -/
theorem specShift_zero (ps : List Particle) (dp dv : List Vec2)
    (hdp : dp.length = ps.length) (hdv : dv.length = ps.length) :
    specShift ps 0 (dp, dv) = ps := by
  induction ps generalizing dp dv with
  | nil => simp [specShift]
  | cons p rest ih =>
    cases dp with
    | nil => simp at hdp
    | cons x dp2 =>
      cases dv with
      | nil => simp at hdv
      | cons y dv2 =>
        have h1 : dp2.length = rest.length := by simpa using hdp
        have h2 : dv2.length = rest.length := by simpa using hdv
        simp only [specShift, List.zip_cons_cons, List.map_cons] at ih ⊢
        rw [ih dp2 dv2 h1 h2]
        simp

/-- Length of the displaced snapshot. -/
theorem specShift_length (ps : List Particle) (h : ℚ) (dp dv : List Vec2)
    (hdp : dp.length = ps.length) (hdv : dv.length = ps.length) :
    (specShift ps h (dp, dv)).length = ps.length := by
  simp [specShift, hdp, hdv]

/-- Lengths of the specification-side derivative sample. -/
theorem specDeriv_lengths (f : List Particle → List Vec2) (ps : List Particle)
    (hf : (f ps).length = ps.length) :
    (specDeriv f ps).1.length = ps.length ∧ (specDeriv f ps).2.length = ps.length := by
  simp [specDeriv, hf]

/-- One `evaluate` stage equals the specification-side derivative of the
displaced snapshot. -/
theorem evaluate_eq_specDeriv (ps : List Particle) (f : List Particle → List Vec2)
    (h : ℚ) (d : RKDerivative) (hdp : d.dpos.length = ps.length) :
    RungeKuttaIntegrator.evaluate ⟨ps.map (·.position), ps.map (·.velocity)⟩ h d f ps =
      ⟨(specDeriv f (specShift ps h (d.dpos, d.dvel))).1,
       (specDeriv f (specShift ps h (d.dpos, d.dvel))).2⟩ := by
  obtain ⟨dp, dv⟩ := d
  simp only [RungeKuttaIntegrator.evaluate]
  rw [mkTemp_eq_specShift ps h dp dv]
  rw [RKDerivative.mk.injEq]
  exact ⟨(specShift_map_velocity ps h dp dv hdp).symm, rfl⟩

/-! Claim C6: RK4 structure of the integrator. -/

/-- C6.  `integrate` computes the four derivative samples `k1..k4` as the
specification-side derivative `(velocity, force/mass)` of hypothetical
snapshots displaced from the initial state by `0`, `dt/2 * k1`,
`dt/2 * k2` and `dt * k3` respectively (never from an updated store),
and updates every non-fixed particle by the RK4 weighted average
`(k + 2*k2 + 2*k3 + k4)/6` of both position and velocity deltas, scaled
by `dt`. -/
theorem c6_rk4_structure (ps : List Particle) (f : List Particle → List Vec2)
    (dt : ℚ) (hf : ∀ l, (f l).length = l.length) :
    RungeKuttaIntegrator.integrate ps f dt =
      (let k1 := specDeriv f ps
       let k2 := specDeriv f (specShift ps (dt * (1/2)) k1)
       let k3 := specDeriv f (specShift ps (dt * (1/2)) k2)
       let k4 := specDeriv f (specShift ps dt k3)
       mapWithIndex (fun i p =>
         if p.fixed then p
         else
           let dxdt := (k1.1.getD i 0 + (2 : ℚ) * k2.1.getD i 0 +
             (2 : ℚ) * k3.1.getD i 0 + k4.1.getD i 0) / (6 : ℚ)
           let dvdt := (k1.2.getD i 0 + (2 : ℚ) * k2.2.getD i 0 +
             (2 : ℚ) * k3.2.getD i 0 + k4.2.getD i 0) / (6 : ℚ)
           { p with position := p.position + dxdt * dt,
                    velocity := p.velocity + dvdt * dt,
                    acceleration := dvdt }) 0 ps) := by
  have len1 : (specDeriv f ps).1.length = ps.length ∧
      (specDeriv f ps).2.length = ps.length := specDeriv_lengths f ps (hf ps)
  have lenS2 : (specShift ps (dt * (1/2)) (specDeriv f ps)).length = ps.length :=
    specShift_length ps _ _ _ len1.1 len1.2
  have len2 : (specDeriv f (specShift ps (dt * (1/2)) (specDeriv f ps))).1.length =
        ps.length ∧
      (specDeriv f (specShift ps (dt * (1/2)) (specDeriv f ps))).2.length = ps.length := by
    have := specDeriv_lengths f (specShift ps (dt * (1/2)) (specDeriv f ps)) (hf _)
    rw [lenS2] at this
    exact this
  have lenS3 : (specShift ps (dt * (1/2))
      (specDeriv f (specShift ps (dt * (1/2)) (specDeriv f ps)))).length = ps.length :=
    specShift_length ps _ _ _ len2.1 len2.2
  have len3 : (specDeriv f (specShift ps (dt * (1/2))
        (specDeriv f (specShift ps (dt * (1/2)) (specDeriv f ps))))).1.length = ps.length ∧
      (specDeriv f (specShift ps (dt * (1/2))
        (specDeriv f (specShift ps (dt * (1/2)) (specDeriv f ps))))).2.length = ps.length := by
    have := specDeriv_lengths f (specShift ps (dt * (1/2))
      (specDeriv f (specShift ps (dt * (1/2)) (specDeriv f ps)))) (hf _)
    rw [lenS3] at this
    exact this
  simp only [RungeKuttaIntegrator.integrate]
  rw [evaluate_eq_specDeriv ps f 0 _ (by simp)]
  rw [specShift_zero ps _ _ (by simp) (by simp)]
  rw [evaluate_eq_specDeriv ps f (dt * (1/2)) _ len1.1]
  rw [evaluate_eq_specDeriv ps f (dt * (1/2)) _ len2.1]
  rw [evaluate_eq_specDeriv ps f dt _ len3.1]

/-- Entry `i` of an index-threaded map. -/
theorem mapWithIndex_get? (f : Nat → α → β) (n i : Nat) (l : List α) :
    (mapWithIndex f n l).get? i = (l.get? i).map (f (n + i)) := by
  induction l generalizing n i with
  | nil => simp [mapWithIndex]
  | cons a as ih =>
    cases i with
    | zero => simp [mapWithIndex]
    | succ j =>
      have harith : n + 1 + j = n + (j + 1) := by omega
      simp only [mapWithIndex, List.get?_cons_succ, ih (n + 1) j, harith]

/-- Entry `j` of the displaced snapshot keeps the particle's mass and
fixed flag. -/
theorem specShift_get? (ps : List Particle) (h : ℚ) (dp dv : List Vec2)
    (j : Nat) (q : Particle) (hq : ps.get? j = some q)
    (hdp : dp.length = ps.length) (hdv : dv.length = ps.length) :
    ∃ r, (specShift ps h (dp, dv)).get? j = some r ∧
      r.mass = q.mass ∧ r.fixed = q.fixed := by
  induction ps generalizing dp dv j with
  | nil => simp at hq
  | cons p rest ih =>
    cases dp with
    | nil => simp at hdp
    | cons x dp2 =>
      cases dv with
      | nil => simp at hdv
      | cons y dv2 =>
        have h1 : dp2.length = rest.length := by simpa using hdp
        have h2 : dv2.length = rest.length := by simpa using hdv
        cases j with
        | zero =>
          simp only [List.get?_cons_zero, Option.some.injEq] at hq
          subst hq
          refine ⟨{ p with position := p.position + x * h, velocity := p.velocity + y * h }, ?_, rfl, rfl⟩
          simp [specShift]
        | succ j2 =>
          simp only [List.get?_cons_succ] at hq
          obtain ⟨r, hr, hm, hx⟩ := ih dp2 dv2 j2 hq h1 h2
          exact ⟨r, by simpa [specShift] using hr, hm, hx⟩

/-! Claim C7: the fixed-particle invariant. -/

/-- C7.  After `integrate`, a particle flagged `fixed` is returned
completely unchanged (in particular its position and velocity equal
their values before the call), for any `dt` and any force field; and
fixed particles are still included in every force evaluation: the
temporary snapshot handed to the force function has one entry per input
particle, preserving each particle's mass and fixed flag (so a fixed
particle keeps exerting force on the others through `forceFunc`). -/
theorem c7_fixed_particles (ps : List Particle) (f : List Particle → List Vec2)
    (dt : ℚ) :
    (∀ i p, ps.get? i = some p → p.fixed = true →
      (RungeKuttaIntegrator.integrate ps f dt).get? i = some p) ∧
    (∀ (h : ℚ) (d : RKDerivative),
      d.dpos.length = ps.length → d.dvel.length = ps.length →
      (RungeKuttaIntegrator.mkTempParticles
          ⟨ps.map (·.position), ps.map (·.velocity)⟩ h d ps).length = ps.length ∧
      (∀ j q, ps.get? j = some q → ∃ r,
        (RungeKuttaIntegrator.mkTempParticles
            ⟨ps.map (·.position), ps.map (·.velocity)⟩ h d ps).get? j = some r ∧
        r.mass = q.mass ∧ r.fixed = q.fixed)) := by
  constructor
  · intro i p hp hfix
    simp only [RungeKuttaIntegrator.integrate]
    rw [mapWithIndex_get?, hp]
    simp [hfix]
  · intro h d hdp hdv
    obtain ⟨dp, dv⟩ := d
    rw [mkTemp_eq_specShift ps h dp dv]
    exact ⟨specShift_length ps h dp dv hdp hdv,
      fun j q hq => specShift_get? ps h dp dv j q hq hdp hdv⟩

/-- Witness for C7: a concrete fixed particle is returned unchanged by a
concrete integration step, and the temporary snapshot has the input
length. -/
theorem c7_fixed_particles_witness :
    (RungeKuttaIntegrator.integrate [pF] fC 1).get? 0 = some pF ∧
    (RungeKuttaIntegrator.mkTempParticles
        ⟨[pF].map (·.position), [pF].map (·.velocity)⟩ 1 ⟨[0], [0]⟩ [pF]).length = 1 :=
  ⟨(c7_fixed_particles [pF] fC 1).1 0 pF rfl rfl,
   ((c7_fixed_particles [pF] fC 1).2 1 ⟨[0], [0]⟩ rfl rfl).1⟩

/-- Witness for C6 at a concrete one-particle system with a constant
force field. -/
theorem c6_rk4_structure_witness :
    RungeKuttaIntegrator.integrate [pC] fC 1 =
      (let k1 := specDeriv fC [pC]
       let k2 := specDeriv fC (specShift [pC] (1 * (1/2)) k1)
       let k3 := specDeriv fC (specShift [pC] (1 * (1/2)) k2)
       let k4 := specDeriv fC (specShift [pC] 1 k3)
       mapWithIndex (fun i p =>
         if p.fixed then p
         else
           let dxdt := (k1.1.getD i 0 + (2 : ℚ) * k2.1.getD i 0 +
             (2 : ℚ) * k3.1.getD i 0 + k4.1.getD i 0) / (6 : ℚ)
           let dvdt := (k1.2.getD i 0 + (2 : ℚ) * k2.2.getD i 0 +
             (2 : ℚ) * k3.2.getD i 0 + k4.2.getD i 0) / (6 : ℚ)
           { p with position := p.position + dxdt * (1 : ℚ),
                    velocity := p.velocity + dvdt * (1 : ℚ),
                    acceleration := dvdt }) 0 [pC]) :=
  c6_rk4_structure [pC] fC 1 (fun l => by simp [fC])

/-! Bounding-box lemmas for the root boundary of the calculator. -/

/-- The folded minimum is below its starting accumulator. -/
theorem bboxMin_le_start (ps : List Particle) (start : Vec2) :
    (bboxMin start ps).x ≤ start.x ∧ (bboxMin start ps).y ≤ start.y := by
  induction ps generalizing start with
  | nil => exact ⟨le_refl _, le_refl _⟩
  | cons p rest ih =>
    have h := ih ⟨min start.x p.position.x, min start.y p.position.y⟩
    exact ⟨le_trans h.1 (by simpa using min_le_left _ _),
      le_trans h.2 (by simpa using min_le_left _ _)⟩

/-- The folded minimum is below every member position. -/
theorem bboxMin_le_mem (ps : List Particle) (start : Vec2) (q : Particle)
    (hq : q ∈ ps) :
    (bboxMin start ps).x ≤ q.position.x ∧ (bboxMin start ps).y ≤ q.position.y := by
  induction ps generalizing start with
  | nil => cases hq
  | cons p rest ih =>
    rcases List.mem_cons.mp hq with h | h
    · subst h
      have h2 := bboxMin_le_start rest ⟨min start.x q.position.x, min start.y q.position.y⟩
      exact ⟨le_trans h2.1 (by simpa using min_le_right _ _),
        le_trans h2.2 (by simpa using min_le_right _ _)⟩
    · exact ih _ h

/-- The folded maximum is above its starting accumulator. -/
theorem bboxMax_ge_start (ps : List Particle) (start : Vec2) :
    start.x ≤ (bboxMax start ps).x ∧ start.y ≤ (bboxMax start ps).y := by
  induction ps generalizing start with
  | nil => exact ⟨le_refl _, le_refl _⟩
  | cons p rest ih =>
    have h := ih ⟨max start.x p.position.x, max start.y p.position.y⟩
    exact ⟨le_trans (by simpa using le_max_left start.x p.position.x) h.1,
      le_trans (by simpa using le_max_left start.y p.position.y) h.2⟩

/-- The folded maximum is above every member position. -/
theorem bboxMax_ge_mem (ps : List Particle) (start : Vec2) (q : Particle)
    (hq : q ∈ ps) :
    q.position.x ≤ (bboxMax start ps).x ∧ q.position.y ≤ (bboxMax start ps).y := by
  induction ps generalizing start with
  | nil => cases hq
  | cons p rest ih =>
    rcases List.mem_cons.mp hq with h | h
    · subst h
      have h2 := bboxMax_ge_start rest ⟨max start.x q.position.x, max start.y q.position.y⟩
      exact ⟨le_trans (by simpa using le_max_right start.x q.position.x) h2.1,
        le_trans (by simpa using le_max_right start.y q.position.y) h2.2⟩
    · exact ih _ h

/-- Unfolded form of the root boundary of a non-empty list. -/
theorem rootBoundaryOf_cons (p0 : Particle) (rest : List Particle) :
    rootBoundaryOf (p0 :: rest) =
      some ⟨(bboxMin p0.position (p0 :: rest) + bboxMax p0.position (p0 :: rest)) *
          ((1 : ℚ)/2),
        maxDimOf (p0 :: rest) * (3/5)⟩ := rfl

/-- The width and height of the bounding box are nonnegative and bounded
by `maxDimOf`. -/
theorem maxDimOf_facts (p0 : Particle) (rest : List Particle) :
    0 ≤ maxDimOf (p0 :: rest) ∧
    (bboxMax p0.position (p0 :: rest)).x - (bboxMin p0.position (p0 :: rest)).x ≤
      maxDimOf (p0 :: rest) ∧
    (bboxMax p0.position (p0 :: rest)).y - (bboxMin p0.position (p0 :: rest)).y ≤
      maxDimOf (p0 :: rest) := by
  have hmn := bboxMin_le_start (p0 :: rest) p0.position
  have hmx := bboxMax_ge_start (p0 :: rest) p0.position
  refine ⟨?_, le_max_left _ _, le_max_right _ _⟩
  exact le_trans (by linarith [hmn.1, hmx.1]) (le_max_left _ _)

/-- The root boundary contains (inclusively) every particle of the list
it was computed from. -/
theorem rootBoundary_contains (p0 : Particle) (rest : List Particle)
    (q : Particle) (hq : q ∈ p0 :: rest) :
    (Boundary.mk
      ((bboxMin p0.position (p0 :: rest) + bboxMax p0.position (p0 :: rest)) *
        ((1 : ℚ)/2))
      (maxDimOf (p0 :: rest) * (3/5))).contains q.position = true := by
  rw [Boundary.contains_iff]
  obtain ⟨hmd, hwx, hwy⟩ := maxDimOf_facts p0 rest
  have h1 := bboxMin_le_mem (p0 :: rest) p0.position q hq
  have h2 := bboxMax_ge_mem (p0 :: rest) p0.position q hq
  dsimp only
  simp only [Vec2.add_x, Vec2.add_y, Vec2.mul_x, Vec2.mul_y]
  refine ⟨by linarith [h1.1, h2.1], by linarith [h1.1, h2.1],
    by linarith [h1.2, h2.2], by linarith [h1.2, h2.2]⟩

/-- When the bounding box is non-degenerate the containment is strict. -/
theorem rootBoundary_strictContains (p0 : Particle) (rest : List Particle)
    (hpos : 0 < maxDimOf (p0 :: rest))
    (q : Particle) (hq : q ∈ p0 :: rest) :
    (Boundary.mk
      ((bboxMin p0.position (p0 :: rest) + bboxMax p0.position (p0 :: rest)) *
        ((1 : ℚ)/2))
      (maxDimOf (p0 :: rest) * (3/5))).strictContains q.position := by
  obtain ⟨hmd, hwx, hwy⟩ := maxDimOf_facts p0 rest
  have h1 := bboxMin_le_mem (p0 :: rest) p0.position q hq
  have h2 := bboxMax_ge_mem (p0 :: rest) p0.position q hq
  unfold Boundary.strictContains
  dsimp only
  simp only [Vec2.add_x, Vec2.add_y, Vec2.mul_x, Vec2.mul_y]
  refine ⟨by linarith [h1.1, h2.1], by linarith [h1.1, h2.1],
    by linarith [h1.2, h2.2], by linarith [h1.2, h2.2]⟩

/-! Unfolding lemmas for the fuelled insertion functions. -/

theorem insert_zero (t : QuadTreeNode) (p : Particle) :
    QuadTreeNode.insert 0 t p = none := rfl

theorem insert_succ (fuel : Nat) (t : QuadTreeNode) (p : Particle) :
    QuadTreeNode.insert (fuel + 1) t p =
      (if t.boundary.contains p.position then
        match t with
        | .leaf b ps com m =>
          if ps.length < MAX_PARTICLES then
            some (.leaf b (ps ++ [p]) com m, true)
          else
            match QuadTreeNode.subdivide fuel b ps com m with
            | none => none
            | some t2 => QuadTreeNode.insert fuel t2 p
        | .internal b ps com m c0 c1 c2 c3 =>
          match QuadTreeNode.insert4 fuel c0 c1 c2 c3 p with
          | none => none
          | some (d0, d1, d2, d3, accepted) =>
            some (.internal b ps com m d0 d1 d2 d3, accepted)
      else some (t, false)) := rfl

theorem insert4_zero (c0 c1 c2 c3 : QuadTreeNode) (p : Particle) :
    QuadTreeNode.insert4 0 c0 c1 c2 c3 p = none := rfl

theorem insert4_succ (fuel : Nat) (c0 c1 c2 c3 : QuadTreeNode) (p : Particle) :
    QuadTreeNode.insert4 (fuel + 1) c0 c1 c2 c3 p =
      (match QuadTreeNode.insert fuel c0 p with
       | none => none
       | some (d0, true) => some (d0, c1, c2, c3, true)
       | some (d0, false) =>
         match QuadTreeNode.insert fuel c1 p with
         | none => none
         | some (d1, true) => some (d0, d1, c2, c3, true)
         | some (d1, false) =>
           match QuadTreeNode.insert fuel c2 p with
           | none => none
           | some (d2, true) => some (d0, d1, d2, c3, true)
           | some (d2, false) =>
             match QuadTreeNode.insert fuel c3 p with
             | none => none
             | some (d3, accepted) => some (d0, d1, d2, d3, accepted)) := rfl

theorem subdivide_zero (b : Boundary) (ps : List Particle) (com : Vec2) (m : ℚ) :
    QuadTreeNode.subdivide 0 b ps com m = none := rfl

theorem subdivide_succ (fuel : Nat) (b : Boundary) (ps : List Particle)
    (com : Vec2) (m : ℚ) :
    QuadTreeNode.subdivide (fuel + 1) b ps com m =
      (match QuadTreeNode.redistribute fuel (emptyLeaf (quadrants b).1)
          (emptyLeaf (quadrants b).2.1) (emptyLeaf (quadrants b).2.2.1)
          (emptyLeaf (quadrants b).2.2.2) ps with
       | none => none
       | some (d0, d1, d2, d3) => some (.internal b [] com m d0 d1 d2 d3)) := rfl

theorem redistribute_zero (c0 c1 c2 c3 : QuadTreeNode) (ps : List Particle) :
    QuadTreeNode.redistribute 0 c0 c1 c2 c3 ps = none := rfl

theorem redistribute_nil (fuel : Nat) (c0 c1 c2 c3 : QuadTreeNode) :
    QuadTreeNode.redistribute (fuel + 1) c0 c1 c2 c3 [] = some (c0, c1, c2, c3) := rfl

theorem redistribute_cons (fuel : Nat) (c0 c1 c2 c3 : QuadTreeNode)
    (p : Particle) (rest : List Particle) :
    QuadTreeNode.redistribute (fuel + 1) c0 c1 c2 c3 (p :: rest) =
      (match QuadTreeNode.insert4 fuel c0 c1 c2 c3 p with
       | none => none
       | some (d0, d1, d2, d3, _) =>
         QuadTreeNode.redistribute fuel d0 d1 d2 d3 rest) := rfl

/-! The cached-mass invariant: insertion never writes any `totalMass`
field, so every node of a tree grown by `insert` from freshly
constructed nodes still caches `totalMass = 0`. -/

/-- Joint fuel induction: `insert`, `insert4`, `subdivide` and
`redistribute` all preserve the all-cached-masses-zero invariant. -/
theorem pristine_bundle : ∀ fuel : Nat,
    (∀ t p r, t.pristine → QuadTreeNode.insert fuel t p = some r →
      r.1.pristine) ∧
    (∀ c0 c1 c2 c3 p r, c0.pristine → c1.pristine → c2.pristine → c3.pristine →
      QuadTreeNode.insert4 fuel c0 c1 c2 c3 p = some r →
      r.1.pristine ∧ r.2.1.pristine ∧ r.2.2.1.pristine ∧ r.2.2.2.1.pristine) ∧
    (∀ b ps com r, QuadTreeNode.subdivide fuel b ps com 0 = some r →
      r.pristine) ∧
    (∀ c0 c1 c2 c3 ps r, c0.pristine → c1.pristine → c2.pristine → c3.pristine →
      QuadTreeNode.redistribute fuel c0 c1 c2 c3 ps = some r →
      r.1.pristine ∧ r.2.1.pristine ∧ r.2.2.1.pristine ∧ r.2.2.2.pristine) := by
  intro fuel
  induction fuel with
  | zero =>
    refine ⟨fun t p r _ h => by simp [QuadTreeNode.insert] at h,
      fun c0 c1 c2 c3 p r _ _ _ _ h => by simp [QuadTreeNode.insert4] at h,
      fun b ps com r h => by simp [QuadTreeNode.subdivide] at h,
      fun c0 c1 c2 c3 ps r _ _ _ _ h => by simp [QuadTreeNode.redistribute] at h⟩
  | succ fuel ih =>
    obtain ⟨ihI, ih4, ihS, ihR⟩ := ih
    have insStep : ∀ t p r, t.pristine → QuadTreeNode.insert (fuel + 1) t p = some r →
        r.1.pristine := by
      intro t p r hpr h
      rw [insert_succ] at h
      by_cases hc : t.boundary.contains p.position = true
      · rw [if_pos hc] at h
        cases t with
        | leaf b ps com m =>
          dsimp only at h
          by_cases hlen : ps.length < MAX_PARTICLES
          · rw [if_pos hlen] at h
            cases h
            exact hpr
          · rw [if_neg hlen] at h
            have hm : m = 0 := hpr
            subst hm
            cases hsub : QuadTreeNode.subdivide fuel b ps com 0 with
            | none => rw [hsub] at h; cases h
            | some t2 =>
              rw [hsub] at h
              exact ihI t2 p r (ihS b ps com t2 hsub) h
        | internal b ps com m c0 c1 c2 c3 =>
          dsimp only at h
          obtain ⟨hm, h0, h1, h2, h3⟩ := hpr
          cases h4 : QuadTreeNode.insert4 fuel c0 c1 c2 c3 p with
          | none => rw [h4] at h; cases h
          | some r4 =>
            rw [h4] at h
            obtain ⟨d0, d1, d2, d3, acc⟩ := r4
            obtain ⟨g0, g1, g2, g3⟩ := ih4 c0 c1 c2 c3 p _ h0 h1 h2 h3 h4
            cases h
            exact ⟨hm, g0, g1, g2, g3⟩
      · rw [if_neg hc] at h
        cases h
        exact hpr
    have ins4Step : ∀ c0 c1 c2 c3 p r, c0.pristine → c1.pristine → c2.pristine →
        c3.pristine → QuadTreeNode.insert4 (fuel + 1) c0 c1 c2 c3 p = some r →
        r.1.pristine ∧ r.2.1.pristine ∧ r.2.2.1.pristine ∧ r.2.2.2.1.pristine := by
      intro c0 c1 c2 c3 p r h0 h1 h2 h3 h
      rw [insert4_succ] at h
      cases e0 : QuadTreeNode.insert fuel c0 p with
      | none => rw [e0] at h; cases h
      | some r0 =>
        rw [e0] at h
        obtain ⟨d0, b0⟩ := r0
        have g0 : d0.pristine := ihI c0 p _ h0 e0
        cases b0 with
        | true => cases h; exact ⟨g0, h1, h2, h3⟩
        | false =>
          cases e1 : QuadTreeNode.insert fuel c1 p with
          | none => rw [e1] at h; cases h
          | some r1 =>
            rw [e1] at h
            obtain ⟨d1, b1⟩ := r1
            have g1 : d1.pristine := ihI c1 p _ h1 e1
            cases b1 with
            | true => cases h; exact ⟨g0, g1, h2, h3⟩
            | false =>
              cases e2 : QuadTreeNode.insert fuel c2 p with
              | none => rw [e2] at h; cases h
              | some r2 =>
                rw [e2] at h
                obtain ⟨d2, b2⟩ := r2
                have g2 : d2.pristine := ihI c2 p _ h2 e2
                cases b2 with
                | true => cases h; exact ⟨g0, g1, g2, h3⟩
                | false =>
                  cases e3 : QuadTreeNode.insert fuel c3 p with
                  | none => rw [e3] at h; cases h
                  | some r3 =>
                    rw [e3] at h
                    obtain ⟨d3, b3⟩ := r3
                    have g3 : d3.pristine := ihI c3 p _ h3 e3
                    cases h
                    exact ⟨g0, g1, g2, g3⟩
    have subStep : ∀ b ps com r, QuadTreeNode.subdivide (fuel + 1) b ps com 0 = some r →
        r.pristine := by
      intro b ps com r h
      rw [subdivide_succ] at h
      cases hr : QuadTreeNode.redistribute fuel (emptyLeaf (quadrants b).1)
          (emptyLeaf (quadrants b).2.1) (emptyLeaf (quadrants b).2.2.1)
          (emptyLeaf (quadrants b).2.2.2) ps with
      | none => rw [hr] at h; cases h
      | some r4 =>
        rw [hr] at h
        obtain ⟨d0, d1, d2, d3⟩ := r4
        obtain ⟨g0, g1, g2, g3⟩ := ihR (emptyLeaf (quadrants b).1)
          (emptyLeaf (quadrants b).2.1) (emptyLeaf (quadrants b).2.2.1)
          (emptyLeaf (quadrants b).2.2.2) ps _ rfl rfl rfl rfl hr
        cases h
        exact ⟨rfl, g0, g1, g2, g3⟩
    have redStep : ∀ c0 c1 c2 c3 ps r, c0.pristine → c1.pristine → c2.pristine →
        c3.pristine → QuadTreeNode.redistribute (fuel + 1) c0 c1 c2 c3 ps = some r →
        r.1.pristine ∧ r.2.1.pristine ∧ r.2.2.1.pristine ∧ r.2.2.2.pristine := by
      intro c0 c1 c2 c3 ps r h0 h1 h2 h3 h
      cases ps with
      | nil =>
        rw [redistribute_nil] at h
        cases h
        exact ⟨h0, h1, h2, h3⟩
      | cons p rest =>
        rw [redistribute_cons] at h
        cases h4 : QuadTreeNode.insert4 fuel c0 c1 c2 c3 p with
        | none => rw [h4] at h; cases h
        | some r4 =>
          rw [h4] at h
          obtain ⟨d0, d1, d2, d3, acc⟩ := r4
          obtain ⟨g0, g1, g2, g3⟩ := ih4 c0 c1 c2 c3 p _ h0 h1 h2 h3 h4
          exact ihR d0 d1 d2 d3 rest r g0 g1 g2 g3 h
    exact ⟨insStep, ins4Step, subStep, redStep⟩

/-- A pristine node caches `totalMass = 0`. -/
theorem pristine_totalMass (t : QuadTreeNode) (h : t.pristine) : t.totalMass = 0 := by
  cases t with
  | leaf b ps com m => exact h
  | internal b ps com m c0 c1 c2 c3 => exact h.1

/-- The insertion loop of `build` preserves the all-masses-zero
invariant. -/
theorem insertAll_pristine (ps : List Particle) : ∀ (fuel : Nat) (t t2 : QuadTreeNode),
    t.pristine → QuadTreeNode.insertAll fuel t ps = some t2 → t2.pristine := by
  induction ps with
  | nil =>
    intro fuel t t2 hp h
    rw [QuadTreeNode.insertAll] at h
    cases h
    exact hp
  | cons p rest ih =>
    intro fuel t t2 hp h
    rw [QuadTreeNode.insertAll] at h
    cases e : QuadTreeNode.insert fuel t p with
    | none => rw [e] at h; cases h
    | some r =>
      rw [e] at h
      exact ih fuel r.1 t2 ((pristine_bundle fuel).1 t p r hp e) h

/-- A successful `subdivide` yields an internal node. -/
theorem subdivide_isInternal (fuel : Nat) (b : Boundary) (ps : List Particle)
    (com : Vec2) (m : ℚ) (r : QuadTreeNode)
    (h : QuadTreeNode.subdivide fuel b ps com m = some r) : r.isInternal = true := by
  cases fuel with
  | zero => rw [subdivide_zero] at h; cases h
  | succ fuel =>
    rw [subdivide_succ] at h
    cases e : QuadTreeNode.redistribute fuel (emptyLeaf (quadrants b).1)
        (emptyLeaf (quadrants b).2.1) (emptyLeaf (quadrants b).2.2.1)
        (emptyLeaf (quadrants b).2.2.2) ps with
    | none => rw [e] at h; cases h
    | some r4 =>
      rw [e] at h
      obtain ⟨d0, d1, d2, d3⟩ := r4
      cases h
      rfl

/-- Inserting into an internal node keeps it internal. -/
theorem insert_isInternal (fuel : Nat) (t : QuadTreeNode) (p : Particle)
    (r : QuadTreeNode × Bool) (ht : t.isInternal = true)
    (h : QuadTreeNode.insert fuel t p = some r) : r.1.isInternal = true := by
  cases fuel with
  | zero => rw [insert_zero] at h; cases h
  | succ fuel =>
    rw [insert_succ] at h
    by_cases hc : t.boundary.contains p.position = true
    · rw [if_pos hc] at h
      cases t with
      | leaf b ps com m => simp [QuadTreeNode.isInternal] at ht
      | internal b ps com m c0 c1 c2 c3 =>
        dsimp only at h
        cases e : QuadTreeNode.insert4 fuel c0 c1 c2 c3 p with
        | none => rw [e] at h; cases h
        | some r4 =>
          rw [e] at h
          obtain ⟨d0, d1, d2, d3, acc⟩ := r4
          cases h
          rfl
    · rw [if_neg hc] at h
      cases h
      exact ht

/-- The insertion loop keeps an internal node internal. -/
theorem insertAll_isInternal (ps : List Particle) : ∀ (fuel : Nat) (t t2 : QuadTreeNode),
    t.isInternal = true → QuadTreeNode.insertAll fuel t ps = some t2 →
    t2.isInternal = true := by
  induction ps with
  | nil =>
    intro fuel t t2 hp h
    rw [QuadTreeNode.insertAll] at h
    cases h
    exact hp
  | cons p rest ih =>
    intro fuel t t2 hp h
    rw [QuadTreeNode.insertAll] at h
    cases e : QuadTreeNode.insert fuel t p with
    | none => rw [e] at h; cases h
    | some r =>
      rw [e] at h
      exact ih fuel r.1 t2 (insert_isInternal fuel t p r hp e) h

/-- `updateCenterOfMass` on an internal node whose children all cache
mass `0` (as the non-recursive source leaves them) sets the node's
`totalMass` to `0` and keeps the node internal. -/
theorem updateCoM_internal_zero (b : Boundary) (ps : List Particle) (com : Vec2)
    (m : ℚ) (c0 c1 c2 c3 : QuadTreeNode) (h0 : c0.totalMass = 0)
    (h1 : c1.totalMass = 0) (h2 : c2.totalMass = 0) (h3 : c3.totalMass = 0) :
    QuadTreeNode.updateCenterOfMass (.internal b ps com m c0 c1 c2 c3) =
      .internal b ps (0 : Vec2) 0 c0 c1 c2 c3 := by
  rw [QuadTreeNode.updateCenterOfMass]
  simp [h0, h1, h2, h3]

/-! Claim C9: the guard of `computeForce` never reads `front()` of an
empty particle vector on any tree the program actually builds. -/

/-- C9.  On every tree returned by `build`, no traversal of
`computeForce` ever evaluates the self-exclusion guard on a node with an
empty particle list and nonzero cached mass: an internal root always
carries `totalMass = 0` (children keep their default masses, so the root
aggregation adds nothing) and the traversal stops there, while a leaf
root with nonzero mass has a non-empty list.  The out-of-bounds
`front()` read is therefore unreachable in any built tree. -/
theorem c9_no_empty_front_read (sqrtQ : ℚ → ℚ) (fuel : Nat) (b : Boundary)
    (ps : List Particle) (t : QuadTreeNode) (theta G softening : ℚ) (q : Particle)
    (h : QuadTreeNode.build fuel (emptyLeaf b) ps = some t) :
    t.readsFrontOfEmpty sqrtQ theta G softening q = false := by
  rw [QuadTreeNode.build] at h
  cases e : QuadTreeNode.insertAll fuel (emptyLeaf b) ps with
  | none => rw [e] at h; cases h
  | some t0 =>
    rw [e, Option.map_some'] at h
    have hpr : t0.pristine := insertAll_pristine ps fuel (emptyLeaf b) t0 rfl e
    cases h
    cases t0 with
    | leaf b2 ps2 com2 m2 =>
      rw [QuadTreeNode.updateCenterOfMass]
      by_cases he : ps2.isEmpty
      · rw [if_pos he]
        simp [QuadTreeNode.readsFrontOfEmpty]
      · rw [if_neg he]
        by_cases hm : ps2.foldl (fun a p => a + p.mass) 0 = 0
        · simp [QuadTreeNode.readsFrontOfEmpty, hm]
        · simp [QuadTreeNode.readsFrontOfEmpty, hm, he]
    | internal b2 ps2 com2 m2 c0 c1 c2 c3 =>
      obtain ⟨hm, g0, g1, g2, g3⟩ := hpr
      rw [updateCoM_internal_zero b2 ps2 com2 m2 c0 c1 c2 c3
        (pristine_totalMass c0 g0) (pristine_totalMass c1 g1)
        (pristine_totalMass c2 g2) (pristine_totalMass c3 g3)]
      simp [QuadTreeNode.readsFrontOfEmpty]

/-- Witness for C9 on a concretely built two-particle tree. -/
theorem c9_no_empty_front_read_witness :
    Tsplit.readsFrontOfEmpty sqrt5 (1/2) 1 4 pA = false :=
  c9_no_empty_front_read sqrt5 10 b0 [pA, pB] Tsplit (1/2) 1 4 pA build_eval_Tsplit

/-- The root boundary of a non-empty list, through `rootBoundaryCons`. -/
theorem rootBoundaryOf_eq_cons (p0 : Particle) (rest : List Particle) :
    rootBoundaryOf (p0 :: rest) = some (rootBoundaryCons p0 rest) := rfl

/-- Setting an entry of a constant list to the same constant changes
nothing. -/
theorem set_replicate_self (n i : Nat) (a : α) :
    (List.replicate n a).set i a = List.replicate n a := by
  induction n generalizing i with
  | zero => simp
  | succ n ih =>
    cases i with
    | zero => simp [List.replicate_succ]
    | succ j => simp [List.replicate_succ, ih j]

/-- `swapL` preserves length. -/
theorem swapL_length (l : List α) (i j : Nat) : (swapL l i j).length = l.length := by
  unfold swapL
  cases h1 : l.get? i with
  | none => rfl
  | some a =>
    cases h2 : l.get? j with
    | none => rfl
    | some b => simp [List.length_set]

/-- Swapping two entries of a constant list changes nothing. -/
theorem swapL_replicate (n : Nat) (a : α) (i j : Nat) :
    swapL (List.replicate n a) i j = List.replicate n a := by
  unfold swapL
  cases h1 : (List.replicate n a).get? i with
  | none => rfl
  | some x =>
    cases h2 : (List.replicate n a).get? j with
    | none => rfl
    | some y =>
      have hx : x = a := by
        have := List.get?_mem h1
        simpa using List.eq_of_mem_replicate this
      have hy : y = a := by
        have := List.get?_mem h2
        simpa using List.eq_of_mem_replicate this
      subst hx; subst hy
      dsimp only
      rw [set_replicate_self, set_replicate_self]

/-- Decomposition of a successful Barnes-Hut force evaluation on a
non-empty snapshot. -/
theorem computeForces_cons_elim (sqrtQ : ℚ → ℚ) (fuel : Nat)
    (theta G softening : ℚ) (p0 : Particle) (rest : List Particle)
    (out : List Vec2)
    (h : BarnesHutForceCalculator.computeForces sqrtQ fuel theta G softening
      (p0 :: rest) = some out) :
    ∃ root, QuadTreeNode.build fuel (emptyLeaf (rootBoundaryCons p0 rest))
        (p0 :: rest) = some root ∧
      out = (p0 :: rest).map
        (fun q => QuadTreeNode.computeForce sqrtQ theta G softening q root) := by
  rw [BarnesHutForceCalculator.computeForces, rootBoundaryOf_eq_cons] at h
  dsimp only at h
  cases e : QuadTreeNode.build fuel (emptyLeaf (rootBoundaryCons p0 rest))
      (p0 :: rest) with
  | none => rw [e] at h; cases h
  | some root =>
    rw [e] at h
    cases h
    exact ⟨root, rfl, rfl⟩

/-- With at least two particles, the built root is internal and caches
`totalMass = 0`. -/
theorem build_cons2_mass_zero (fuel : Nat) (p0 p1 : Particle)
    (rest : List Particle) (rb : Boundary) (t : QuadTreeNode)
    (hc0 : rb.contains p0.position = true) (hc1 : rb.contains p1.position = true)
    (h : QuadTreeNode.build fuel (emptyLeaf rb) (p0 :: p1 :: rest) = some t) :
    t.totalMass = 0 ∧ t.isInternal = true := by
  rw [QuadTreeNode.build] at h
  cases e : QuadTreeNode.insertAll fuel (emptyLeaf rb) (p0 :: p1 :: rest) with
  | none => rw [e] at h; cases h
  | some t0 =>
    rw [e, Option.map_some'] at h
    have hpr : t0.pristine := insertAll_pristine _ fuel (emptyLeaf rb) t0 rfl e
    have hint : t0.isInternal = true := by
      cases fuel with
      | zero => rw [QuadTreeNode.insertAll, insert_zero] at e; cases e
      | succ f =>
        rw [QuadTreeNode.insertAll] at e
        rw [insert_succ] at e
        rw [if_pos (show (emptyLeaf rb).boundary.contains p0.position = true
          from hc0)] at e
        norm_num [emptyLeaf, MAX_PARTICLES] at e
        rw [QuadTreeNode.insertAll] at e
        cases e2 : QuadTreeNode.insert (f + 1)
            (QuadTreeNode.leaf rb [p0] ⟨0, 0⟩ 0) p1 with
        | none => rw [e2] at e; cases e
        | some r2 =>
          rw [e2] at e
          have h2i : r2.1.isInternal = true := by
            rw [insert_succ] at e2
            rw [if_pos (show (QuadTreeNode.leaf rb [p0]
              ⟨0, 0⟩ 0).boundary.contains p1.position = true from hc1)] at e2
            dsimp only at e2
            rw [if_neg (by norm_num [MAX_PARTICLES])] at e2
            cases e3 : QuadTreeNode.subdivide f rb [p0] ⟨0, 0⟩ 0 with
            | none => rw [e3] at e2; cases e2
            | some ts =>
              rw [e3] at e2
              exact insert_isInternal f ts p1 r2
                (subdivide_isInternal f rb [p0] ⟨0, 0⟩ 0 ts e3) e2
          exact insertAll_isInternal rest (f + 1) r2.1 t0 h2i e
    cases t0 with
    | leaf b2 ps2 com2 m2 => simp [QuadTreeNode.isInternal] at hint
    | internal b2 ps2 com2 m2 c0 c1 c2 c3 =>
      obtain ⟨hm, g0, g1, g2, g3⟩ := hpr
      rw [updateCoM_internal_zero b2 ps2 com2 m2 c0 c1 c2 c3
        (pristine_totalMass c0 g0) (pristine_totalMass c1 g1)
        (pristine_totalMass c2 g2) (pristine_totalMass c3 g3)] at h
      cases h
      exact ⟨rfl, rfl⟩

/-- Mapping the traversal of a zero-mass root over any snapshot gives
the all-zero force list. -/
theorem map_computeForce_zero (sqrtQ : ℚ → ℚ) (theta G softening : ℚ)
    (root : QuadTreeNode) (hm : root.totalMass = 0) (l : List Particle) :
    l.map (fun q => QuadTreeNode.computeForce sqrtQ theta G softening q root) =
      List.replicate l.length 0 := by
  induction l with
  | nil => rfl
  | cons p rest ih =>
    simp only [List.map_cons, List.length_cons, List.replicate_succ, ih,
      computeForce_eq_zero_of_totalMass_zero sqrtQ theta G softening p root hm]

/-- With at least two particles the whole Barnes-Hut output is the
all-zero list. -/
theorem bh_cons2_zero (sqrtQ : ℚ → ℚ) (fuel : Nat) (theta G softening : ℚ)
    (p0 p1 : Particle) (rest : List Particle) (out : List Vec2)
    (h : BarnesHutForceCalculator.computeForces sqrtQ fuel theta G softening
      (p0 :: p1 :: rest) = some out) :
    out = List.replicate (p0 :: p1 :: rest).length 0 := by
  obtain ⟨root, hb, ho⟩ := computeForces_cons_elim sqrtQ fuel theta G softening
    p0 (p1 :: rest) out h
  have hc0 : (rootBoundaryCons p0 (p1 :: rest)).contains p0.position = true :=
    rootBoundary_contains p0 (p1 :: rest) p0 (by simp)
  have hc1 : (rootBoundaryCons p0 (p1 :: rest)).contains p1.position = true :=
    rootBoundary_contains p0 (p1 :: rest) p1 (by simp)
  obtain ⟨hm, _⟩ := build_cons2_mass_zero fuel p0 p1 rest
    (rootBoundaryCons p0 (p1 :: rest)) root hc0 hc1 hb
  rw [ho, map_computeForce_zero sqrtQ theta G softening root hm]

/-! Claim C4: index alignment of the force output. -/

/-- C4.  Whenever the Barnes-Hut evaluator returns, the output has
exactly the input length; for a non-empty input, entry `k` of the output
is the traversal force of input particle `k` on the single tree built
from the snapshot (index alignment); and swapping two input particles
produces exactly the corresponding swap of the output (whenever the
evaluator also returns on the swapped input). -/
theorem c4_index_alignment (sqrtQ : ℚ → ℚ) (fuel fuel2 : Nat)
    (theta G softening : ℚ) (ps : List Particle) (out : List Vec2)
    (hout : BarnesHutForceCalculator.computeForces sqrtQ fuel theta G softening ps =
      some out) :
    out.length = ps.length ∧
    (∀ p0 rest, ps = p0 :: rest → ∃ root,
      QuadTreeNode.build fuel (emptyLeaf (rootBoundaryCons p0 rest)) ps = some root ∧
      ∀ k, out.get? k = (ps.get? k).map
        (fun q => QuadTreeNode.computeForce sqrtQ theta G softening q root)) ∧
    (∀ i j out2, i ≠ j → i < ps.length → j < ps.length →
      BarnesHutForceCalculator.computeForces sqrtQ fuel2 theta G softening
        (swapL ps i j) = some out2 →
      out2 = swapL out i j) := by
  refine ⟨?_, ?_, ?_⟩
  · cases ps with
    | nil =>
      rw [BarnesHutForceCalculator.computeForces] at hout
      dsimp only [rootBoundaryOf] at hout
      cases hout
      rfl
    | cons p0 rest =>
      obtain ⟨root, _, ho⟩ := computeForces_cons_elim sqrtQ fuel theta G softening
        p0 rest out hout
      rw [ho, List.length_map]
  · intro p0 rest hps
    subst hps
    obtain ⟨root, hb, ho⟩ := computeForces_cons_elim sqrtQ fuel theta G softening
      p0 rest out hout
    exact ⟨root, hb, fun k => by rw [ho, List.get?_map]⟩
  · intro i j out2 hij hi hj hsw
    cases ps with
    | nil => cases hi
    | cons p0 tail =>
      cases tail with
      | nil =>
        simp only [List.length_cons, List.length_nil] at hi hj
        omega
      | cons p1 rest =>
        have hzero : out = List.replicate (p0 :: p1 :: rest).length 0 :=
          bh_cons2_zero sqrtQ fuel theta G softening p0 p1 rest out hout
        have hlen : (swapL (p0 :: p1 :: rest) i j).length = (p0 :: p1 :: rest).length :=
          swapL_length _ i j
        cases hsl : swapL (p0 :: p1 :: rest) i j with
        | nil => rw [hsl] at hlen; cases hlen
        | cons q0 tail2 =>
          cases tail2 with
          | nil => rw [hsl] at hlen; simp at hlen
          | cons q1 rest2 =>
            rw [hsl] at hsw
            have hzero2 : out2 = List.replicate (q0 :: q1 :: rest2).length 0 :=
              bh_cons2_zero sqrtQ fuel2 theta G softening q0 q1 rest2 out2 hsw
            rw [hsl] at hlen
            rw [hzero2, hzero, swapL_replicate]
            rw [hlen]

/-- Witness for C4 on the concrete two-particle snapshot, including the
swap of the two inputs. -/
theorem c4_index_alignment_witness :
    ([(0 : Vec2), 0] : List Vec2).length = [pC, pD].length ∧
    ([(0 : Vec2), 0] : List Vec2) = swapL [(0 : Vec2), 0] 0 1 :=
  ⟨(c4_index_alignment sqrt5 10 10 (1/2) 1 4 [pC, pD] [0, 0]
      (bh_eval_theta (1/2))).1,
   (c4_index_alignment sqrt5 10 10 (1/2) 1 4 [pC, pD] [0, 0]
      (bh_eval_theta (1/2))).2.2 0 1 [0, 0] (by omega) (by norm_num)
      (by norm_num) (bh_eval_theta_swapped (1/2))⟩

/-! Quadrant geometry: the four child boxes sit inside the parent and
jointly cover it. -/

/-- Each quadrant of a box with nonnegative half-size is contained in
the box. -/
theorem quadrant_subset (b : Boundary) (hb : 0 ≤ b.halfSize) (p : Vec2) :
    ((quadrants b).1.contains p = true → b.contains p = true) ∧
    ((quadrants b).2.1.contains p = true → b.contains p = true) ∧
    ((quadrants b).2.2.1.contains p = true → b.contains p = true) ∧
    ((quadrants b).2.2.2.contains p = true → b.contains p = true) := by
  simp only [quadrants]
  refine ⟨?_, ?_, ?_, ?_⟩ <;>
    (intro h
     rw [Boundary.contains_iff] at h ⊢
     dsimp only at h
     simp only [Vec2.add_x, Vec2.add_y, Vec2.x_mk, Vec2.y_mk] at h
     obtain ⟨h1, h2, h3, h4⟩ := h
     refine ⟨by linarith, by linarith, by linarith, by linarith⟩)

/-- Every point of a box lies in at least one of its quadrants. -/
theorem quadrant_cover (b : Boundary) (p : Vec2) (h : b.contains p = true) :
    (quadrants b).1.contains p = true ∨ (quadrants b).2.1.contains p = true ∨
    (quadrants b).2.2.1.contains p = true ∨ (quadrants b).2.2.2.contains p = true := by
  rw [Boundary.contains_iff] at h
  obtain ⟨h1, h2, h3, h4⟩ := h
  simp only [quadrants]
  rcases le_total p.x b.center.x with hx | hx <;>
    rcases le_total p.y b.center.y with hy | hy
  · refine Or.inr (Or.inl ?_)
    rw [Boundary.contains_iff]
    dsimp only
    simp only [Vec2.add_x, Vec2.add_y, Vec2.x_mk, Vec2.y_mk]
    refine ⟨by linarith, by linarith, by linarith, by linarith⟩
  · refine Or.inr (Or.inr (Or.inr ?_))
    rw [Boundary.contains_iff]
    dsimp only
    simp only [Vec2.add_x, Vec2.add_y, Vec2.x_mk, Vec2.y_mk]
    refine ⟨by linarith, by linarith, by linarith, by linarith⟩
  · refine Or.inl ?_
    rw [Boundary.contains_iff]
    dsimp only
    simp only [Vec2.add_x, Vec2.add_y, Vec2.x_mk, Vec2.y_mk]
    refine ⟨by linarith, by linarith, by linarith, by linarith⟩
  · refine Or.inr (Or.inr (Or.inl ?_))
    rw [Boundary.contains_iff]
    dsimp only
    simp only [Vec2.add_x, Vec2.add_y, Vec2.x_mk, Vec2.y_mk]
    refine ⟨by linarith, by linarith, by linarith, by linarith⟩


/-- Well-formedness of a freshly constructed node. -/
theorem WF_emptyLeaf (b : Boundary) (hb : 0 ≤ b.halfSize) : WF (emptyLeaf b) := by
  refine WF.leaf b [] ⟨0, 0⟩ 0 (by simp [MAX_PARTICLES]) (by simp) hb

/-- Move an element out of the second block of an append. -/
theorem perm_shift2 (a : α) (u v : List α) :
    (u ++ (a :: v)).Perm (a :: (u ++ v)) := List.perm_middle

/-- Move an element out of the third block of an append. -/
theorem perm_shift3 (a : α) (u v w : List α) :
    (u ++ (v ++ (a :: w))).Perm (a :: (u ++ (v ++ w))) := by
  have h := @List.perm_middle _ a (u ++ v) w
  simpa [List.append_assoc] using h

/-- Move an element out of the fourth block of an append. -/
theorem perm_shift4 (a : α) (u v w z : List α) :
    (u ++ (v ++ (w ++ (a :: z)))).Perm (a :: (u ++ (v ++ (w ++ z)))) := by
  have h := @List.perm_middle _ a (u ++ v ++ w) z
  simpa [List.append_assoc] using h

theorem sound_bundle : ∀ fuel : Nat,
    (∀ t p r, WF t → QuadTreeNode.insert fuel t p = some r →
      WF r.1 ∧ r.1.boundary = t.boundary ∧
      (r.2 = true ↔ t.boundary.contains p.position = true) ∧
      (r.2 = true → r.1.content.Perm (p :: t.content)) ∧
      (r.2 = false → r.1.content.Perm t.content)) ∧
    (∀ c0 c1 c2 c3 p r, WF c0 → WF c1 → WF c2 → WF c3 →
      QuadTreeNode.insert4 fuel c0 c1 c2 c3 p = some r →
      WF r.1 ∧ WF r.2.1 ∧ WF r.2.2.1 ∧ WF r.2.2.2.1 ∧
      r.1.boundary = c0.boundary ∧ r.2.1.boundary = c1.boundary ∧
      r.2.2.1.boundary = c2.boundary ∧ r.2.2.2.1.boundary = c3.boundary ∧
      (r.2.2.2.2 = true ↔ (c0.boundary.contains p.position = true ∨
        c1.boundary.contains p.position = true ∨
        c2.boundary.contains p.position = true ∨
        c3.boundary.contains p.position = true)) ∧
      (r.2.2.2.2 = true →
        (r.1.content ++ (r.2.1.content ++ (r.2.2.1.content ++
          r.2.2.2.1.content))).Perm
          (p :: (c0.content ++ (c1.content ++ (c2.content ++ c3.content))))) ∧
      (r.2.2.2.2 = false →
        (r.1.content ++ (r.2.1.content ++ (r.2.2.1.content ++
          r.2.2.2.1.content))).Perm
          (c0.content ++ (c1.content ++ (c2.content ++ c3.content))))) ∧
    (∀ b ps com m r, 0 ≤ b.halfSize →
      (∀ q ∈ ps, b.contains q.position = true) →
      QuadTreeNode.subdivide fuel b ps com m = some r →
      WF r ∧ r.boundary = b ∧ r.content.Perm ps) ∧
    (∀ c0 c1 c2 c3 ps r, WF c0 → WF c1 → WF c2 → WF c3 →
      (∀ q ∈ ps, c0.boundary.contains q.position = true ∨
        c1.boundary.contains q.position = true ∨
        c2.boundary.contains q.position = true ∨
        c3.boundary.contains q.position = true) →
      QuadTreeNode.redistribute fuel c0 c1 c2 c3 ps = some r →
      WF r.1 ∧ WF r.2.1 ∧ WF r.2.2.1 ∧ WF r.2.2.2 ∧
      r.1.boundary = c0.boundary ∧ r.2.1.boundary = c1.boundary ∧
      r.2.2.1.boundary = c2.boundary ∧ r.2.2.2.boundary = c3.boundary ∧
      (r.1.content ++ (r.2.1.content ++ (r.2.2.1.content ++
        r.2.2.2.content))).Perm
        (ps ++ (c0.content ++ (c1.content ++ (c2.content ++ c3.content))))) := by
  intro fuel
  induction fuel with
  | zero =>
    refine ⟨fun t p r _ h => (by rw [insert_zero] at h; cases h),
      fun c0 c1 c2 c3 p r _ _ _ _ h => (by rw [insert4_zero] at h; cases h),
      fun b ps com m r _ _ h => (by rw [subdivide_zero] at h; cases h),
      fun c0 c1 c2 c3 ps r _ _ _ _ _ h => (by rw [redistribute_zero] at h; cases h)⟩
  | succ fuel ih =>
    obtain ⟨ihI, ih4, ihS, ihR⟩ := ih
    have insStep : ∀ t p r, WF t → QuadTreeNode.insert (fuel + 1) t p = some r →
        WF r.1 ∧ r.1.boundary = t.boundary ∧
        (r.2 = true ↔ t.boundary.contains p.position = true) ∧
        (r.2 = true → r.1.content.Perm (p :: t.content)) ∧
        (r.2 = false → r.1.content.Perm t.content) := by
      intro t p r hwf h
      rw [insert_succ] at h
      by_cases hc : t.boundary.contains p.position = true
      · rw [if_pos hc] at h
        cases hwf with
        | leaf b ps com m hlen hcont hb =>
          replace hc : b.contains p.position = true := hc
          dsimp only at h
          by_cases hfull : ps.length < MAX_PARTICLES
          · rw [if_pos hfull] at h
            cases h
            have hps : ps = [] := by
              rw [MAX_PARTICLES] at hfull
              exact List.length_eq_zero.mp (by omega)
            subst hps
            refine ⟨WF.leaf b [p] com m (by simp [MAX_PARTICLES])
              (by intro q hq; simp at hq; subst hq; exact hc) hb, rfl, ?_, ?_, ?_⟩
            · simp only [QuadTreeNode.boundary]
              simp [hc]
            · intro _
              simp [QuadTreeNode.content]
            · intro hfalse; exact Bool.noConfusion hfalse
          · rw [if_neg hfull] at h
            cases hsub : QuadTreeNode.subdivide fuel b ps com m with
            | none => rw [hsub] at h; cases h
            | some t2 =>
              rw [hsub] at h
              obtain ⟨hwf2, hb2, hp2⟩ := ihS b ps com m t2 hb hcont hsub
              obtain ⟨gwf, gb, giff, gtrue, gfalse⟩ := ihI t2 p r hwf2 h
              refine ⟨gwf, by rw [gb, hb2]; rfl, ?_, ?_, ?_⟩
              · rw [giff, hb2]
                exact Iff.rfl
              · intro ht
                exact (gtrue ht).trans (hp2.cons p)
              · intro hf
                exact (gfalse hf).trans hp2
        | internal b com m c0 c1 c2 c3 hb e0 e1 e2 e3 w0 w1 w2 w3 =>
          replace hc : b.contains p.position = true := hc
          dsimp only at h
          cases h4 : QuadTreeNode.insert4 fuel c0 c1 c2 c3 p with
          | none => rw [h4] at h; cases h
          | some r4 =>
            rw [h4] at h
            obtain ⟨d0, d1, d2, d3, acc⟩ := r4
            obtain ⟨g0, g1, g2, g3, f0, f1, f2, f3, giff, gtrue, gfalse⟩ :=
              ih4 c0 c1 c2 c3 p _ w0 w1 w2 w3 h4
            cases h
            have hwfr : WF (QuadTreeNode.internal b [] com m d0 d1 d2 d3) :=
              WF.internal b com m d0 d1 d2 d3 hb (f0.trans e0) (f1.trans e1)
                (f2.trans e2) (f3.trans e3) g0 g1 g2 g3
            refine ⟨hwfr, rfl, ?_, ?_, ?_⟩
            · constructor
              · intro _; exact hc
              · intro _
                rcases quadrant_cover b p.position hc with hq | hq | hq | hq
                · exact giff.mpr (Or.inl (by rw [e0]; exact hq))
                · exact giff.mpr (Or.inr (Or.inl (by rw [e1]; exact hq)))
                · exact giff.mpr (Or.inr (Or.inr (Or.inl (by rw [e2]; exact hq))))
                · exact giff.mpr (Or.inr (Or.inr (Or.inr (by rw [e3]; exact hq))))
            · intro ht
              simp only [QuadTreeNode.content, List.nil_append]
              exact gtrue ht
            · intro hf
              simp only [QuadTreeNode.content, List.nil_append]
              exact gfalse hf
      · rw [if_neg hc] at h
        cases h
        exact ⟨hwf, rfl, by simp [hc], fun ht => Bool.noConfusion ht,
          fun _ => List.Perm.refl _⟩
    have ins4Step : ∀ c0 c1 c2 c3 p r, WF c0 → WF c1 → WF c2 → WF c3 →
        QuadTreeNode.insert4 (fuel + 1) c0 c1 c2 c3 p = some r →
        WF r.1 ∧ WF r.2.1 ∧ WF r.2.2.1 ∧ WF r.2.2.2.1 ∧
        r.1.boundary = c0.boundary ∧ r.2.1.boundary = c1.boundary ∧
        r.2.2.1.boundary = c2.boundary ∧ r.2.2.2.1.boundary = c3.boundary ∧
        (r.2.2.2.2 = true ↔ (c0.boundary.contains p.position = true ∨
          c1.boundary.contains p.position = true ∨
          c2.boundary.contains p.position = true ∨
          c3.boundary.contains p.position = true)) ∧
        (r.2.2.2.2 = true →
          (r.1.content ++ (r.2.1.content ++ (r.2.2.1.content ++
            r.2.2.2.1.content))).Perm
            (p :: (c0.content ++ (c1.content ++ (c2.content ++ c3.content))))) ∧
        (r.2.2.2.2 = false →
          (r.1.content ++ (r.2.1.content ++ (r.2.2.1.content ++
            r.2.2.2.1.content))).Perm
            (c0.content ++ (c1.content ++ (c2.content ++ c3.content)))) := by
      intro c0 c1 c2 c3 p r w0 w1 w2 w3 h
      rw [insert4_succ] at h
      cases e0 : QuadTreeNode.insert fuel c0 p with
      | none => rw [e0] at h; cases h
      | some r0 =>
        rw [e0] at h
        obtain ⟨d0, a0⟩ := r0
        obtain ⟨g0, f0, giff0, gt0, gf0⟩ := ihI c0 p _ w0 e0
        cases a0 with
        | true =>
          cases h
          refine ⟨g0, w1, w2, w3, f0, rfl, rfl, rfl, ?_, ?_, ?_⟩
          · exact ⟨fun _ => Or.inl (giff0.mp rfl), fun _ => rfl⟩
          · intro _
            exact (gt0 rfl).append_right _
          · intro hfalse; exact Bool.noConfusion hfalse
        | false =>
          have hn0 : ¬ (c0.boundary.contains p.position = true) :=
            fun hcon => Bool.noConfusion (giff0.mpr hcon)
          have hp0 : d0.content.Perm c0.content := gf0 rfl
          cases e1 : QuadTreeNode.insert fuel c1 p with
          | none => rw [e1] at h; cases h
          | some r1 =>
            rw [e1] at h
            obtain ⟨d1, a1⟩ := r1
            obtain ⟨g1, f1, giff1, gt1, gf1⟩ := ihI c1 p _ w1 e1
            cases a1 with
            | true =>
              cases h
              refine ⟨g0, g1, w2, w3, f0, f1, rfl, rfl, ?_, ?_, ?_⟩
              · exact ⟨fun _ => Or.inr (Or.inl (giff1.mp rfl)), fun _ => rfl⟩
              · intro _
                refine (hp0.append ((gt1 rfl).append_right _)).trans ?_
                exact perm_shift2 p c0.content _
              · intro hfalse; exact Bool.noConfusion hfalse
            | false =>
              have hn1 : ¬ (c1.boundary.contains p.position = true) :=
                fun hcon => Bool.noConfusion (giff1.mpr hcon)
              have hp1 : d1.content.Perm c1.content := gf1 rfl
              cases e2 : QuadTreeNode.insert fuel c2 p with
              | none => rw [e2] at h; cases h
              | some r2 =>
                rw [e2] at h
                obtain ⟨d2, a2⟩ := r2
                obtain ⟨g2, f2, giff2, gt2, gf2⟩ := ihI c2 p _ w2 e2
                cases a2 with
                | true =>
                  cases h
                  refine ⟨g0, g1, g2, w3, f0, f1, f2, rfl, ?_, ?_, ?_⟩
                  · exact ⟨fun _ => Or.inr (Or.inr (Or.inl (giff2.mp rfl))),
                      fun _ => rfl⟩
                  · intro _
                    refine (hp0.append (hp1.append
                      ((gt2 rfl).append_right _))).trans ?_
                    exact perm_shift3 p c0.content c1.content _
                  · intro hfalse; exact Bool.noConfusion hfalse
                | false =>
                  have hn2 : ¬ (c2.boundary.contains p.position = true) :=
                    fun hcon => Bool.noConfusion (giff2.mpr hcon)
                  have hp2 : d2.content.Perm c2.content := gf2 rfl
                  cases e3 : QuadTreeNode.insert fuel c3 p with
                  | none => rw [e3] at h; cases h
                  | some r3 =>
                    rw [e3] at h
                    obtain ⟨d3, a3⟩ := r3
                    obtain ⟨g3, f3, giff3, gt3, gf3⟩ := ihI c3 p _ w3 e3
                    cases h
                    refine ⟨g0, g1, g2, g3, f0, f1, f2, f3, ?_, ?_, ?_⟩
                    · constructor
                      · intro ha
                        exact Or.inr (Or.inr (Or.inr (giff3.mp ha)))
                      · intro hor
                        rcases hor with hx | hx | hx | hx
                        · exact absurd hx hn0
                        · exact absurd hx hn1
                        · exact absurd hx hn2
                        · exact giff3.mpr hx
                    · intro ha
                      refine (hp0.append (hp1.append (hp2.append
                        (gt3 ha)))).trans ?_
                      exact perm_shift4 p c0.content c1.content c2.content _
                    · intro ha
                      exact hp0.append (hp1.append (hp2.append (gf3 ha)))
    have subStep : ∀ b ps com m r, 0 ≤ b.halfSize →
        (∀ q ∈ ps, b.contains q.position = true) →
        QuadTreeNode.subdivide (fuel + 1) b ps com m = some r →
        WF r ∧ r.boundary = b ∧ r.content.Perm ps := by
      intro b ps com m r hb hcont h
      rw [subdivide_succ] at h
      have hq : (0 : ℚ) ≤ b.halfSize * (1/2) := by
        have : (0 : ℚ) ≤ (1 : ℚ)/2 := by norm_num
        exact mul_nonneg hb this
      cases hre : QuadTreeNode.redistribute fuel (emptyLeaf (quadrants b).1)
          (emptyLeaf (quadrants b).2.1) (emptyLeaf (quadrants b).2.2.1)
          (emptyLeaf (quadrants b).2.2.2) ps with
      | none => rw [hre] at h; cases h
      | some r4 =>
        rw [hre] at h
        obtain ⟨d0, d1, d2, d3⟩ := r4
        have hwq : ∀ q ∈ ps,
            (emptyLeaf (quadrants b).1).boundary.contains q.position = true ∨
            (emptyLeaf (quadrants b).2.1).boundary.contains q.position = true ∨
            (emptyLeaf (quadrants b).2.2.1).boundary.contains q.position = true ∨
            (emptyLeaf (quadrants b).2.2.2).boundary.contains q.position = true := by
          intro q hqm
          exact quadrant_cover b q.position (hcont q hqm)
        obtain ⟨g0, g1, g2, g3, f0, f1, f2, f3, hperm⟩ :=
          ihR (emptyLeaf (quadrants b).1) (emptyLeaf (quadrants b).2.1)
            (emptyLeaf (quadrants b).2.2.1) (emptyLeaf (quadrants b).2.2.2) ps
            _ (WF_emptyLeaf _ hq) (WF_emptyLeaf _ hq) (WF_emptyLeaf _ hq)
            (WF_emptyLeaf _ hq) hwq hre
        cases h
        refine ⟨WF.internal b com m d0 d1 d2 d3 hb f0 f1 f2 f3 g0 g1 g2 g3,
          rfl, ?_⟩
        simp only [QuadTreeNode.content, List.nil_append]
        have := hperm
        simp only [emptyLeaf, QuadTreeNode.content, List.append_nil] at this
        exact this
    have redStep : ∀ c0 c1 c2 c3 ps r, WF c0 → WF c1 → WF c2 → WF c3 →
        (∀ q ∈ ps, c0.boundary.contains q.position = true ∨
          c1.boundary.contains q.position = true ∨
          c2.boundary.contains q.position = true ∨
          c3.boundary.contains q.position = true) →
        QuadTreeNode.redistribute (fuel + 1) c0 c1 c2 c3 ps = some r →
        WF r.1 ∧ WF r.2.1 ∧ WF r.2.2.1 ∧ WF r.2.2.2 ∧
        r.1.boundary = c0.boundary ∧ r.2.1.boundary = c1.boundary ∧
        r.2.2.1.boundary = c2.boundary ∧ r.2.2.2.boundary = c3.boundary ∧
        (r.1.content ++ (r.2.1.content ++ (r.2.2.1.content ++
          r.2.2.2.content))).Perm
          (ps ++ (c0.content ++ (c1.content ++ (c2.content ++ c3.content)))) := by
      intro c0 c1 c2 c3 ps r w0 w1 w2 w3 hcov h
      cases ps with
      | nil =>
        rw [redistribute_nil] at h
        cases h
        exact ⟨w0, w1, w2, w3, rfl, rfl, rfl, rfl, List.Perm.refl _⟩
      | cons p rest =>
        rw [redistribute_cons] at h
        cases e4 : QuadTreeNode.insert4 fuel c0 c1 c2 c3 p with
        | none => rw [e4] at h; cases h
        | some r4 =>
          rw [e4] at h
          obtain ⟨d0, d1, d2, d3, acc⟩ := r4
          obtain ⟨g0, g1, g2, g3, f0, f1, f2, f3, giff, gtrue, gfalse⟩ :=
            ih4 c0 c1 c2 c3 p _ w0 w1 w2 w3 e4
          have hacc : acc = true := giff.mpr (hcov p (by simp))
          subst hacc
          have hcov2 : ∀ q ∈ rest, d0.boundary.contains q.position = true ∨
              d1.boundary.contains q.position = true ∨
              d2.boundary.contains q.position = true ∨
              d3.boundary.contains q.position = true := by
            intro q hqm
            rw [f0, f1, f2, f3]
            exact hcov q (by simp [hqm])
          obtain ⟨k0, k1, k2, k3, m0, m1, m2, m3, hperm⟩ :=
            ihR d0 d1 d2 d3 rest r g0 g1 g2 g3 hcov2 h
          refine ⟨k0, k1, k2, k3, m0.trans f0, m1.trans f1, m2.trans f2,
            m3.trans f3, ?_⟩
          refine hperm.trans ?_
          refine ((gtrue rfl).append_left rest).trans ?_
          exact perm_shift2 p rest _
    exact ⟨insStep, ins4Step, subStep, redStep⟩

/-- Soundness of the insertion loop of `build`: on success, the tree is
well-formed, keeps its boundary, and stores exactly the inserted
particles (when they are all inside the root boundary). -/
theorem insertAll_sound (ps : List Particle) : ∀ (fuel : Nat) (t t2 : QuadTreeNode),
    WF t → (∀ q ∈ ps, t.boundary.contains q.position = true) →
    QuadTreeNode.insertAll fuel t ps = some t2 →
    WF t2 ∧ t2.boundary = t.boundary ∧ t2.content.Perm (ps ++ t.content) := by
  induction ps with
  | nil =>
    intro fuel t t2 hwf _ h
    rw [QuadTreeNode.insertAll] at h
    cases h
    exact ⟨hwf, rfl, by simp⟩
  | cons p rest ih =>
    intro fuel t t2 hwf hcont h
    rw [QuadTreeNode.insertAll] at h
    cases e : QuadTreeNode.insert fuel t p with
    | none => rw [e] at h; cases h
    | some r =>
      rw [e] at h
      obtain ⟨gwf, gb, giff, gtrue, _⟩ := (sound_bundle fuel).1 t p r hwf e
      have hacc : r.2 = true := giff.mpr (hcont p (by simp))
      have hcp : r.1.content.Perm (p :: t.content) := gtrue hacc
      have hrest : ∀ q ∈ rest, r.1.boundary.contains q.position = true := by
        intro q hq
        rw [gb]
        exact hcont q (by simp [hq])
      obtain ⟨k1, k2, k3⟩ := ih fuel r.1 t2 gwf hrest h
      refine ⟨k1, k2.trans gb, ?_⟩
      refine k3.trans ?_
      refine ((hcp.append_left rest).trans (perm_shift2 p rest t.content)).trans ?_
      exact List.Perm.refl _

/-- `updateCenterOfMass` does not change the stored particles. -/
theorem updateCoM_content (t : QuadTreeNode) :
    (QuadTreeNode.updateCenterOfMass t).content = t.content := by
  cases t with
  | leaf b ps com m =>
    rw [QuadTreeNode.updateCenterOfMass]
    by_cases he : ps.isEmpty
    · rw [if_pos he]
      rfl
    · rw [if_neg he]
      rfl
  | internal b ps com m c0 c1 c2 c3 =>
    rw [QuadTreeNode.updateCenterOfMass]
    rfl

/-! Claim C5: the margin-padded root boundary (amended). -/

/-- C5 (amended).  For every non-empty particle list, the root boundary
built by `computeForces` (bounding-box center, half-size
`max(width, height) * 0.6`) contains every particle position
inclusively; the containment is strict whenever the bounding box is
non-degenerate (`max(width, height) > 0`), but NOT for a degenerate
snapshot (all positions equal, e.g. a singleton, see the
counterexample); and consequently no particle is ever dropped by the
out-of-bounds branch of `insert` during `build`: the built tree stores
exactly the input particles. -/
theorem c5_root_boundary (p0 : Particle) (rest : List Particle) :
    (∀ q ∈ p0 :: rest, (rootBoundaryCons p0 rest).contains q.position = true) ∧
    (0 < maxDimOf (p0 :: rest) →
      ∀ q ∈ p0 :: rest, (rootBoundaryCons p0 rest).strictContains q.position) ∧
    (∀ fuel t, QuadTreeNode.build fuel (emptyLeaf (rootBoundaryCons p0 rest))
        (p0 :: rest) = some t →
      t.content.Perm (p0 :: rest)) := by
  refine ⟨fun q hq => rootBoundary_contains p0 rest q hq,
    fun hpos q hq => rootBoundary_strictContains p0 rest hpos q hq, ?_⟩
  intro fuel t h
  rw [QuadTreeNode.build] at h
  cases e : QuadTreeNode.insertAll fuel (emptyLeaf (rootBoundaryCons p0 rest))
      (p0 :: rest) with
  | none => rw [e] at h; cases h
  | some t0 =>
    rw [e, Option.map_some'] at h
    have hb : (0 : ℚ) ≤ (rootBoundaryCons p0 rest).halfSize := by
      have h35 : (0 : ℚ) ≤ (3 : ℚ)/5 := by norm_num
      exact mul_nonneg (maxDimOf_facts p0 rest).1 h35
    obtain ⟨_, _, hcont⟩ := insertAll_sound (p0 :: rest) fuel
      (emptyLeaf (rootBoundaryCons p0 rest)) t0 (WF_emptyLeaf _ hb)
      (fun q hq => rootBoundary_contains p0 rest q hq) e
    cases h
    rw [updateCoM_content]
    simpa [emptyLeaf, QuadTreeNode.content] using hcont

/-- Concrete evaluation: building over `[pA, pB]` from the calculator's
root boundary yields `TsplitAB`. -/
theorem build_eval_TsplitAB :
    QuadTreeNode.build 10 (emptyLeaf (rootBoundaryCons pA [pB])) [pA, pB] =
      some TsplitAB := by
  norm_num [QuadTreeNode.build, QuadTreeNode.insertAll, QuadTreeNode.insert,
    QuadTreeNode.insert4, QuadTreeNode.subdivide, QuadTreeNode.redistribute,
    QuadTreeNode.updateCenterOfMass, QuadTreeNode.boundary, QuadTreeNode.totalMass,
    QuadTreeNode.centerOfMass, emptyLeaf, quadrants, pA, pB,
    Boundary.contains, MAX_PARTICLES, TsplitAB, rootBoundaryCons, bboxMin,
    bboxMax, maxDimOf]
  rfl

/-- Witness for C5 (amended) on the two-particle snapshot `[pA, pB]`:
inclusive containment, strict containment, and no dropped particles in a
concrete build. -/
theorem c5_root_boundary_witness :
    (rootBoundaryCons pA [pB]).contains pA.position = true ∧
    (rootBoundaryCons pA [pB]).strictContains pA.position ∧
    TsplitAB.content.Perm [pA, pB] :=
  ⟨(c5_root_boundary pA [pB]).1 pA (by simp),
   (c5_root_boundary pA [pB]).2.1 (by norm_num [maxDimOf, bboxMin, bboxMax, pA, pB])
     pA (by simp),
   (c5_root_boundary pA [pB]).2.2 10 TsplitAB build_eval_TsplitAB⟩

/-! Fuel monotonicity: a result obtained within some fuel is stable
under giving more fuel. -/

theorem mono_bundle : ∀ fuel : Nat,
    (∀ t p r, QuadTreeNode.insert fuel t p = some r →
      QuadTreeNode.insert (fuel + 1) t p = some r) ∧
    (∀ c0 c1 c2 c3 p r, QuadTreeNode.insert4 fuel c0 c1 c2 c3 p = some r →
      QuadTreeNode.insert4 (fuel + 1) c0 c1 c2 c3 p = some r) ∧
    (∀ b ps com m r, QuadTreeNode.subdivide fuel b ps com m = some r →
      QuadTreeNode.subdivide (fuel + 1) b ps com m = some r) ∧
    (∀ c0 c1 c2 c3 ps r, QuadTreeNode.redistribute fuel c0 c1 c2 c3 ps = some r →
      QuadTreeNode.redistribute (fuel + 1) c0 c1 c2 c3 ps = some r) := by
  intro fuel
  induction fuel with
  | zero =>
    refine ⟨fun t p r h => (by rw [insert_zero] at h; cases h),
      fun c0 c1 c2 c3 p r h => (by rw [insert4_zero] at h; cases h),
      fun b ps com m r h => (by rw [subdivide_zero] at h; cases h),
      fun c0 c1 c2 c3 ps r h => (by rw [redistribute_zero] at h; cases h)⟩
  | succ fuel ih =>
    obtain ⟨ihI, ih4, ihS, ihR⟩ := ih
    have insStep : ∀ t p r, QuadTreeNode.insert (fuel + 1) t p = some r →
        QuadTreeNode.insert (fuel + 2) t p = some r := by
      intro t p r h
      rw [insert_succ] at h
      rw [insert_succ]
      by_cases hc : t.boundary.contains p.position = true
      · rw [if_pos hc] at h
        rw [if_pos hc]
        cases t with
        | leaf b ps com m =>
          dsimp only at h ⊢
          by_cases hfull : ps.length < MAX_PARTICLES
          · rw [if_pos hfull] at h
            rw [if_pos hfull]
            exact h
          · rw [if_neg hfull] at h
            rw [if_neg hfull]
            cases hsub : QuadTreeNode.subdivide fuel b ps com m with
            | none => rw [hsub] at h; cases h
            | some t2 =>
              rw [hsub] at h
              rw [ihS b ps com m t2 hsub]
              exact ihI t2 p r h
        | internal b ps com m c0 c1 c2 c3 =>
          dsimp only at h ⊢
          cases h4 : QuadTreeNode.insert4 fuel c0 c1 c2 c3 p with
          | none => rw [h4] at h; cases h
          | some r4 =>
            rw [h4] at h
            rw [ih4 c0 c1 c2 c3 p r4 h4]
            exact h
      · rw [if_neg hc] at h
        rw [if_neg hc]
        exact h
    have ins4Step : ∀ c0 c1 c2 c3 p r,
        QuadTreeNode.insert4 (fuel + 1) c0 c1 c2 c3 p = some r →
        QuadTreeNode.insert4 (fuel + 2) c0 c1 c2 c3 p = some r := by
      intro c0 c1 c2 c3 p r h
      rw [insert4_succ] at h
      rw [insert4_succ]
      cases e0 : QuadTreeNode.insert fuel c0 p with
      | none => rw [e0] at h; cases h
      | some r0 =>
        rw [e0] at h
        rw [ihI c0 p r0 e0]
        obtain ⟨d0, a0⟩ := r0
        cases a0 with
        | true => exact h
        | false =>
          dsimp only at h ⊢
          cases e1 : QuadTreeNode.insert fuel c1 p with
          | none => rw [e1] at h; cases h
          | some r1 =>
            rw [e1] at h
            rw [ihI c1 p r1 e1]
            obtain ⟨d1, a1⟩ := r1
            cases a1 with
            | true => exact h
            | false =>
              dsimp only at h ⊢
              cases e2 : QuadTreeNode.insert fuel c2 p with
              | none => rw [e2] at h; cases h
              | some r2 =>
                rw [e2] at h
                rw [ihI c2 p r2 e2]
                obtain ⟨d2, a2⟩ := r2
                cases a2 with
                | true => exact h
                | false =>
                  dsimp only at h ⊢
                  cases e3 : QuadTreeNode.insert fuel c3 p with
                  | none => rw [e3] at h; cases h
                  | some r3 =>
                    rw [e3] at h
                    rw [ihI c3 p r3 e3]
                    exact h
    have subStep : ∀ b ps com m r, QuadTreeNode.subdivide (fuel + 1) b ps com m = some r →
        QuadTreeNode.subdivide (fuel + 2) b ps com m = some r := by
      intro b ps com m r h
      rw [subdivide_succ] at h
      rw [subdivide_succ]
      cases hre : QuadTreeNode.redistribute fuel (emptyLeaf (quadrants b).1)
          (emptyLeaf (quadrants b).2.1) (emptyLeaf (quadrants b).2.2.1)
          (emptyLeaf (quadrants b).2.2.2) ps with
      | none => rw [hre] at h; cases h
      | some r4 =>
        rw [hre] at h
        rw [ihR _ _ _ _ ps r4 hre]
        exact h
    have redStep : ∀ c0 c1 c2 c3 ps r,
        QuadTreeNode.redistribute (fuel + 1) c0 c1 c2 c3 ps = some r →
        QuadTreeNode.redistribute (fuel + 2) c0 c1 c2 c3 ps = some r := by
      intro c0 c1 c2 c3 ps r h
      cases ps with
      | nil =>
        rw [redistribute_nil] at h
        rw [redistribute_nil]
        exact h
      | cons p rest =>
        rw [redistribute_cons] at h
        rw [redistribute_cons]
        cases e4 : QuadTreeNode.insert4 fuel c0 c1 c2 c3 p with
        | none => rw [e4] at h; cases h
        | some r4 =>
          rw [e4] at h
          rw [ih4 c0 c1 c2 c3 p r4 e4]
          obtain ⟨d0, d1, d2, d3, acc⟩ := r4
          exact ihR d0 d1 d2 d3 rest r h
    exact ⟨insStep, ins4Step, subStep, redStep⟩

/-- Monotonicity of `insert` in the fuel. -/
theorem insert_mono {f g : Nat} (hfg : f ≤ g) (t : QuadTreeNode) (p : Particle)
    (r : QuadTreeNode × Bool) (h : QuadTreeNode.insert f t p = some r) :
    QuadTreeNode.insert g t p = some r := by
  induction g, hfg using Nat.le_induction with
  | base => exact h
  | succ g hfg ih => exact (mono_bundle g).1 t p r ih

/-- Monotonicity of `insert4` in the fuel. -/
theorem insert4_mono {f g : Nat} (hfg : f ≤ g) (c0 c1 c2 c3 : QuadTreeNode)
    (p : Particle) (r : QuadTreeNode × QuadTreeNode × QuadTreeNode × QuadTreeNode × Bool)
    (h : QuadTreeNode.insert4 f c0 c1 c2 c3 p = some r) :
    QuadTreeNode.insert4 g c0 c1 c2 c3 p = some r := by
  induction g, hfg using Nat.le_induction with
  | base => exact h
  | succ g hfg ih => exact (mono_bundle g).2.1 c0 c1 c2 c3 p r ih

/-- Monotonicity of `subdivide` in the fuel. -/
theorem subdivide_mono {f g : Nat} (hfg : f ≤ g) (b : Boundary) (ps : List Particle)
    (com : Vec2) (m : ℚ) (r : QuadTreeNode)
    (h : QuadTreeNode.subdivide f b ps com m = some r) :
    QuadTreeNode.subdivide g b ps com m = some r := by
  induction g, hfg using Nat.le_induction with
  | base => exact h
  | succ g hfg ih => exact (mono_bundle g).2.2.1 b ps com m r ih

/-- Monotonicity of `insertAll` in the fuel. -/
theorem insertAll_mono (ps : List Particle) : ∀ {f g : Nat}, f ≤ g →
    ∀ (t t2 : QuadTreeNode), QuadTreeNode.insertAll f t ps = some t2 →
    QuadTreeNode.insertAll g t ps = some t2 := by
  induction ps with
  | nil =>
    intro f g hfg t t2 h
    rw [QuadTreeNode.insertAll] at h ⊢
    exact h
  | cons p rest ih =>
    intro f g hfg t t2 h
    rw [QuadTreeNode.insertAll] at h ⊢
    cases e : QuadTreeNode.insert f t p with
    | none => rw [e] at h; cases h
    | some r =>
      rw [e] at h
      rw [insert_mono hfg t p r e]
      exact ih hfg r.1 t2 h

/-! Chebyshev-distance lemmas for the separation argument. -/

/-- `dinf` is symmetric. -/
theorem dinf_comm (u v : Vec2) : dinf u v = dinf v u := by
  unfold dinf
  rw [abs_sub_comm, abs_sub_comm u.y v.y]

/-- Distinct points have positive Chebyshev distance. -/
theorem dinf_pos (u v : Vec2) (h : u ≠ v) : 0 < dinf u v := by
  unfold dinf
  rcases eq_or_ne u.x v.x with hx | hx
  · rcases eq_or_ne u.y v.y with hy | hy
    · exact absurd (by cases u; cases v; simp_all) h
    · exact lt_max_of_lt_right (abs_pos.mpr (sub_ne_zero.mpr hy))
  · exact lt_max_of_lt_left (abs_pos.mpr (sub_ne_zero.mpr hx))

/-- Two points of one box are within Chebyshev distance twice the
half-size. -/
theorem contains_dinf_le (b : Boundary) (u v : Vec2)
    (hu : b.contains u = true) (hv : b.contains v = true) :
    dinf u v ≤ 2 * b.halfSize := by
  rw [Boundary.contains_iff] at hu hv
  unfold dinf
  refine max_le (abs_le.mpr ⟨by linarith [hu.1, hu.2.1, hv.1, hv.2.1],
    by linarith [hu.1, hu.2.1, hv.1, hv.2.1]⟩)
    (abs_le.mpr ⟨by linarith [hu.2.2.1, hu.2.2.2, hv.2.2.1, hv.2.2.2],
      by linarith [hu.2.2.1, hu.2.2.2, hv.2.2.1, hv.2.2.2]⟩)

/-- A separation exponent exists for a particle whose position differs
from every stored position. -/
theorem sep_exists (p : Particle) (l : List Particle) (h : ℚ)
    (hd : ∀ q ∈ l, q.position ≠ p.position) :
    ∃ k : Nat, ∀ q ∈ l, 2 * h < 2 ^ k * dinf p.position q.position := by
  induction l with
  | nil => exact ⟨0, by simp⟩
  | cons q rest ih =>
    obtain ⟨k2, hk2⟩ := ih (fun r hr => hd r (by simp [hr]))
    have hdq : 0 < dinf p.position q.position := by
      rw [dinf_comm]
      exact dinf_pos _ _ (hd q (by simp))
    obtain ⟨k1, hk1⟩ := pow_unbounded_of_one_lt
      (2 * h / dinf p.position q.position) (by norm_num : (1 : ℚ) < 2)
    refine ⟨max k1 k2, ?_⟩
    intro r hr
    rcases List.mem_cons.mp hr with hcase | hcase
    · subst hcase
      have h1 : 2 * h < 2 ^ k1 * dinf p.position r.position := by
        rw [div_lt_iff hdq] at hk1
        linarith
      have h2 : (2 : ℚ) ^ k1 ≤ 2 ^ max k1 k2 :=
        pow_le_pow_right (by norm_num) (le_max_left _ _)
      have h3 : (2 : ℚ) ^ k1 * dinf p.position r.position ≤
          2 ^ max k1 k2 * dinf p.position r.position :=
        mul_le_mul_of_nonneg_right h2 (le_of_lt hdq)
      linarith
    · have h1 := hk2 r hcase
      have hd2 : 0 ≤ dinf p.position r.position := by
        rw [dinf_comm]
        exact le_of_lt (dinf_pos _ _ (hd r (by simp [hcase])))
      have h2 : (2 : ℚ) ^ k2 ≤ 2 ^ max k1 k2 :=
        pow_le_pow_right (by norm_num) (le_max_right _ _)
      have h3 : (2 : ℚ) ^ k2 * dinf p.position r.position ≤
          2 ^ max k1 k2 * dinf p.position r.position :=
        mul_le_mul_of_nonneg_right h2 hd2
      linarith

/-- Stored particles lie inside the node boundary. -/
theorem content_contained : ∀ (t : QuadTreeNode), WF t →
    ∀ q ∈ t.content, t.boundary.contains q.position = true := by
  intro t
  induction t with
  | leaf b ps com m =>
    intro hwf q hq
    cases hwf with
    | leaf _ _ _ _ hlen hcont hb => exact hcont q hq
  | internal b ps com m c0 c1 c2 c3 ih0 ih1 ih2 ih3 =>
    intro hwf q hq
    cases hwf with
    | internal _ _ _ _ _ _ _ hb e0 e1 e2 e3 w0 w1 w2 w3 =>
      simp only [QuadTreeNode.content, List.nil_append, List.mem_append] at hq
      obtain ⟨s0, s1, s2, s3⟩ := quadrant_subset b hb q.position
      rcases hq with hq | hq | hq | hq
      · exact s0 (by rw [← e0]; exact ih0 w0 q hq)
      · exact s1 (by rw [← e1]; exact ih1 w1 q hq)
      · exact s2 (by rw [← e2]; exact ih2 w2 q hq)
      · exact s3 (by rw [← e3]; exact ih3 w3 q hq)

/-- Inserting a particle outside the node boundary returns the node
unchanged with `false`, at any positive fuel. -/
theorem insert_not_contains (fuel : Nat) (t : QuadTreeNode) (p : Particle)
    (hc : t.boundary.contains p.position = false) :
    QuadTreeNode.insert (fuel + 1) t p = some (t, false) := by
  rw [insert_succ, if_neg (by simp [hc])]

/-- If some child contains the particle and every containing child can
successfully insert it, the child loop succeeds and accepts. -/
theorem insert4_terminates (c0 c1 c2 c3 : QuadTreeNode) (p : Particle)
    (H0 : c0.boundary.contains p.position = true →
      ∃ fuel d, QuadTreeNode.insert fuel c0 p = some (d, true))
    (H1 : c1.boundary.contains p.position = true →
      ∃ fuel d, QuadTreeNode.insert fuel c1 p = some (d, true))
    (H2 : c2.boundary.contains p.position = true →
      ∃ fuel d, QuadTreeNode.insert fuel c2 p = some (d, true))
    (H3 : c3.boundary.contains p.position = true →
      ∃ fuel d, QuadTreeNode.insert fuel c3 p = some (d, true))
    (hsome : c0.boundary.contains p.position = true ∨
      c1.boundary.contains p.position = true ∨
      c2.boundary.contains p.position = true ∨
      c3.boundary.contains p.position = true) :
    ∃ fuel d0 d1 d2 d3, QuadTreeNode.insert4 fuel c0 c1 c2 c3 p =
      some (d0, d1, d2, d3, true) := by
  by_cases g0 : c0.boundary.contains p.position = true
  · obtain ⟨f, d, hf⟩ := H0 g0
    refine ⟨f + 1, d, c1, c2, c3, ?_⟩
    rw [insert4_succ, hf]
  · have n0 : c0.boundary.contains p.position = false := by
      simpa using g0
    by_cases g1 : c1.boundary.contains p.position = true
    · obtain ⟨f, d, hf⟩ := H1 g1
      refine ⟨max f 1 + 1, c0, d, c2, c3, ?_⟩
      rw [insert4_succ]
      obtain ⟨f0, hf0⟩ : ∃ f0 : Nat, max f 1 = f0 + 1 :=
        ⟨max f 1 - 1, by omega⟩
      rw [hf0, insert_not_contains f0 c0 p n0, ← hf0]
      rw [insert_mono (le_max_left f 1) c1 p (d, true) hf]
    · have n1 : c1.boundary.contains p.position = false := by
        simpa using g1
      by_cases g2 : c2.boundary.contains p.position = true
      · obtain ⟨f, d, hf⟩ := H2 g2
        refine ⟨max f 1 + 1, c0, c1, d, c3, ?_⟩
        rw [insert4_succ]
        obtain ⟨f0, hf0⟩ : ∃ f0 : Nat, max f 1 = f0 + 1 :=
          ⟨max f 1 - 1, by omega⟩
        rw [hf0, insert_not_contains f0 c0 p n0,
          insert_not_contains f0 c1 p n1, ← hf0]
        rw [insert_mono (le_max_left f 1) c2 p (d, true) hf]
      · have n2 : c2.boundary.contains p.position = false := by
          simpa using g2
        have g3 : c3.boundary.contains p.position = true := by
          rcases hsome with hx | hx | hx | hx
          · exact absurd hx g0
          · exact absurd hx g1
          · exact absurd hx g2
          · exact hx
        obtain ⟨f, d, hf⟩ := H3 g3
        refine ⟨max f 1 + 1, c0, c1, c2, d, ?_⟩
        rw [insert4_succ]
        obtain ⟨f0, hf0⟩ : ∃ f0 : Nat, max f 1 = f0 + 1 :=
          ⟨max f 1 - 1, by omega⟩
        rw [hf0, insert_not_contains f0 c0 p n0,
          insert_not_contains f0 c1 p n1, insert_not_contains f0 c2 p n2, ← hf0]
        rw [insert_mono (le_max_left f 1) c3 p (d, true) hf]

/-- Inserting into a fresh empty leaf that contains the position
succeeds in one step. -/
theorem insert_emptyLeaf (bb : Boundary) (q : Particle)
    (hcq : bb.contains q.position = true) :
    QuadTreeNode.insert 1 (emptyLeaf bb) q =
      some (QuadTreeNode.leaf bb [q] ⟨0, 0⟩ 0, true) := by
  show QuadTreeNode.insert (0 + 1) (emptyLeaf bb) q = _
  rw [insert_succ]
  rw [if_pos (show (emptyLeaf bb).boundary.contains q.position = true from hcq)]
  norm_num [emptyLeaf, MAX_PARTICLES]

/-- Separation-depth induction: a particle whose position is contained
in a well-formed tree and distinct from every stored position is
eventually accepted by `insert`, given enough fuel. -/
theorem insert_terminates : ∀ (k : Nat) (t : QuadTreeNode) (p : Particle),
    WF t → t.boundary.contains p.position = true →
    (∀ q ∈ t.content, q.position ≠ p.position) →
    (∀ q ∈ t.content,
      2 * t.boundary.halfSize < 2 ^ k * dinf p.position q.position) →
    ∃ fuel d, QuadTreeNode.insert fuel t p = some (d, true) := by
  intro k
  induction k using Nat.strong_induction_on with
  | _ k ihk =>
    intro t p
    induction t with
    | leaf b ps com m =>
      intro hwf hc hdist hsep
      simp only [QuadTreeNode.boundary] at hc
      simp only [QuadTreeNode.boundary, QuadTreeNode.content] at hsep
      simp only [QuadTreeNode.content] at hdist
      cases hwf with
      | leaf _ _ _ _ hlen hcont hb =>
        by_cases hful : ps.length < MAX_PARTICLES
        · refine ⟨1, QuadTreeNode.leaf b (ps ++ [p]) com m, ?_⟩
          show QuadTreeNode.insert (0 + 1) _ p = _
          rw [insert_succ]
          rw [if_pos (show (QuadTreeNode.leaf b ps com m).boundary.contains
            p.position = true from hc)]
          dsimp only
          rw [if_pos hful]
        · have hlen1 : ps.length = 1 := by
            rw [MAX_PARTICLES] at hlen hful
            omega
          obtain ⟨q, rfl⟩ := List.length_eq_one.mp hlen1
          have hqne : q.position ≠ p.position := hdist q (by simp)
          have hqcont : b.contains q.position = true := hcont q (by simp)
          have hdle : dinf p.position q.position ≤ 2 * b.halfSize :=
            contains_dinf_le b p.position q.position hc hqcont
          have hsepq := hsep q (by simp)
          have hdpos : 0 < dinf p.position q.position := by
            rw [dinf_comm]
            exact dinf_pos _ _ hqne
          cases k with
          | zero =>
            exfalso
            rw [pow_zero, one_mul] at hsepq
            linarith
          | succ k2 =>
            have hbq : (0 : ℚ) ≤ b.halfSize * (1/2) := mul_nonneg hb (by norm_num)
            obtain ⟨fq, d0, d1, d2, d3, hq4⟩ :=
              insert4_terminates (emptyLeaf (quadrants b).1)
                (emptyLeaf (quadrants b).2.1) (emptyLeaf (quadrants b).2.2.1)
                (emptyLeaf (quadrants b).2.2.2) q
                (fun hcq => ⟨1, _, insert_emptyLeaf _ q hcq⟩)
                (fun hcq => ⟨1, _, insert_emptyLeaf _ q hcq⟩)
                (fun hcq => ⟨1, _, insert_emptyLeaf _ q hcq⟩)
                (fun hcq => ⟨1, _, insert_emptyLeaf _ q hcq⟩)
                (quadrant_cover b q.position hqcont)
            obtain ⟨g0, g1, g2, g3, f0, f1, f2, f3, hiff4, htr4, _⟩ :=
              (sound_bundle fq).2.1 _ _ _ _ q _ (WF_emptyLeaf _ hbq)
                (WF_emptyLeaf _ hbq) (WF_emptyLeaf _ hbq) (WF_emptyLeaf _ hbq) hq4
            have hperm : (d0.content ++ (d1.content ++ (d2.content ++
                d3.content))).Perm [q] := by
              have := htr4 rfl
              simpa [emptyLeaf, QuadTreeNode.content] using this
            have hsub : ∀ q', q' ∈ d0.content ∨ q' ∈ d1.content ∨
                q' ∈ d2.content ∨ q' ∈ d3.content → q' = q := by
              intro q' hq'
              have hmem : q' ∈ (d0.content ++ (d1.content ++ (d2.content ++
                  d3.content))) := by
                simp only [List.mem_append]
                tauto
              have := hperm.mem_iff.mp hmem
              simpa using this
            have hhalf : ∀ i : Fin 4,
                ((quadrants b).1.halfSize = b.halfSize * (1/2)) := fun _ => rfl
            have hretry : ∀ (c : QuadTreeNode), WF c →
                c.boundary.halfSize = b.halfSize * (1/2) →
                (∀ q' ∈ c.content, q' = q) →
                c.boundary.contains p.position = true →
                ∃ fuel dd, QuadTreeNode.insert fuel c p = some (dd, true) := by
              intro c wc hch hcc hcp
              refine ihk k2 (by omega) c p wc hcp ?_ ?_
              · intro q' hq'
                rw [hcc q' hq']
                exact hqne
              · intro q' hq'
                rw [hcc q' hq', hch]
                have hp2 : (2 : ℚ) ^ (k2 + 1) = 2 ^ k2 * 2 := pow_succ 2 k2
                rw [hp2] at hsepq
                linarith
            obtain ⟨fp, e0x, e1x, e2x, e3x, hp4⟩ :=
              insert4_terminates d0 d1 d2 d3 p
                (fun hcp => hretry d0 g0 (by rw [f0]; rfl)
                  (fun q' hq' => hsub q' (Or.inl hq')) hcp)
                (fun hcp => hretry d1 g1 (by rw [f1]; rfl)
                  (fun q' hq' => hsub q' (Or.inr (Or.inl hq'))) hcp)
                (fun hcp => hretry d2 g2 (by rw [f2]; rfl)
                  (fun q' hq' => hsub q' (Or.inr (Or.inr (Or.inl hq')))) hcp)
                (fun hcp => hretry d3 g3 (by rw [f3]; rfl)
                  (fun q' hq' => hsub q' (Or.inr (Or.inr (Or.inr hq')))) hcp)
                (by
                  rw [f0, f1, f2, f3]
                  exact quadrant_cover b p.position hc)
            obtain ⟨G1, hG1⟩ : ∃ G1 : Nat, max fq 1 = G1 + 1 :=
              ⟨max fq 1 - 1, by omega⟩
            have hred : QuadTreeNode.redistribute (max fq 1 + 1)
                (emptyLeaf (quadrants b).1) (emptyLeaf (quadrants b).2.1)
                (emptyLeaf (quadrants b).2.2.1) (emptyLeaf (quadrants b).2.2.2)
                [q] = some (d0, d1, d2, d3) := by
              rw [redistribute_cons]
              rw [insert4_mono (le_max_left fq 1) _ _ _ _ q _ hq4]
              dsimp only
              rw [hG1, redistribute_nil]
            have hsubd : QuadTreeNode.subdivide (max fq 1 + 2) b [q] com m =
                some (QuadTreeNode.internal b [] com m d0 d1 d2 d3) := by
              rw [subdivide_succ]
              rw [hred]
            set W := max fp (max fq 1 + 2) with hW
            refine ⟨W + 2, QuadTreeNode.internal b [] com m e0x e1x e2x e3x, ?_⟩
            show QuadTreeNode.insert (W + 1 + 1) _ p = _
            rw [insert_succ]
            rw [if_pos (show (QuadTreeNode.leaf b [q] com m).boundary.contains
              p.position = true from hc)]
            dsimp only
            rw [if_neg hful]
            rw [subdivide_mono (show max fq 1 + 2 ≤ W + 1 by omega) b [q] com m
              _ hsubd]
            show QuadTreeNode.insert (W + 1) _ p = _
            rw [insert_succ]
            rw [if_pos (show (QuadTreeNode.internal b [] com m
              d0 d1 d2 d3).boundary.contains p.position = true from hc)]
            dsimp only
            rw [insert4_mono (show fp ≤ W by omega) d0 d1 d2 d3 p _ hp4]
    | internal b ps com m c0 c1 c2 c3 ih0 ih1 ih2 ih3 =>
      intro hwf hc hdist hsep
      simp only [QuadTreeNode.boundary] at hc
      simp only [QuadTreeNode.boundary, QuadTreeNode.content] at hsep
      simp only [QuadTreeNode.content] at hdist
      cases hwf with
      | internal _ _ _ _ _ _ _ hb e0 e1 e2 e3 w0 w1 w2 w3 =>
        simp only [List.nil_append] at hdist hsep
        have hchild : ∀ (c : QuadTreeNode), WF c →
            c.boundary = (quadrants b).1 ∨ c.boundary = (quadrants b).2.1 ∨
            c.boundary = (quadrants b).2.2.1 ∨ c.boundary = (quadrants b).2.2.2 →
            (∀ q ∈ c.content, q ∈ c0.content ++ (c1.content ++
              (c2.content ++ c3.content))) →
            (WF c → c.boundary.contains p.position = true →
              (∀ q ∈ c.content, q.position ≠ p.position) →
              (∀ q ∈ c.content,
                2 * c.boundary.halfSize < 2 ^ k * dinf p.position q.position) →
              ∃ fuel d, QuadTreeNode.insert fuel c p = some (d, true)) →
            c.boundary.contains p.position = true →
            ∃ fuel d, QuadTreeNode.insert fuel c p = some (d, true) := by
          intro c wc hbc hmemc ihc hcp
          refine ihc wc hcp (fun q hq => hdist q (hmemc q hq)) ?_
          intro q hq
          have hsepq := hsep q (hmemc q hq)
          have hh : c.boundary.halfSize = b.halfSize * (1/2) := by
            rcases hbc with h | h | h | h <;> rw [h] <;> rfl
          rw [hh]
          have hd0 : (0 : ℚ) ≤ dinf p.position q.position := by
            rw [dinf_comm]
            exact le_of_lt (dinf_pos _ _ (hdist q (hmemc q hq)))
          have hpow : (1 : ℚ) ≤ 2 ^ k := one_le_pow₀ (by norm_num)
          nlinarith [hsepq, hb, hd0, hpow]
        obtain ⟨f4, d0x, d1x, d2x, d3x, h4⟩ :=
          insert4_terminates c0 c1 c2 c3 p
            (fun hcp => hchild c0 w0 (Or.inl e0)
              (fun q hq => by simp [hq]) ih0 hcp)
            (fun hcp => hchild c1 w1 (Or.inr (Or.inl e1))
              (fun q hq => by simp [hq]) ih1 hcp)
            (fun hcp => hchild c2 w2 (Or.inr (Or.inr (Or.inl e2)))
              (fun q hq => by simp [hq]) ih2 hcp)
            (fun hcp => hchild c3 w3 (Or.inr (Or.inr (Or.inr e3)))
              (fun q hq => by simp [hq]) ih3 hcp)
            (by
              rw [e0, e1, e2, e3]
              exact quadrant_cover b p.position hc)
        refine ⟨f4 + 1, QuadTreeNode.internal b [] com m d0x d1x d2x d3x, ?_⟩
        rw [insert_succ]
        rw [if_pos (show (QuadTreeNode.internal b [] com m
          c0 c1 c2 c3).boundary.contains p.position = true from hc)]
        dsimp only
        rw [h4]

/-- A well-formed tree has at most `MAX_PARTICLES` particles per leaf. -/
theorem WF_leavesSmall : ∀ (t : QuadTreeNode), WF t → t.leavesSmall := by
  intro t
  induction t with
  | leaf b ps com m =>
    intro hwf
    cases hwf with
    | leaf _ _ _ _ hlen _ _ => exact hlen
  | internal b ps com m c0 c1 c2 c3 ih0 ih1 ih2 ih3 =>
    intro hwf
    cases hwf with
    | internal _ _ _ _ _ _ _ _ _ _ _ _ w0 w1 w2 w3 =>
      exact ⟨ih0 w0, ih1 w1, ih2 w2, ih3 w3⟩

/-- `updateCenterOfMass` rewrites only the cached mass data, so leaf
occupancy is unchanged. -/
theorem updateCoM_leavesSmall (t : QuadTreeNode) (h : t.leavesSmall) :
    t.updateCenterOfMass.leavesSmall := by
  cases t with
  | leaf b ps com m =>
    rw [QuadTreeNode.updateCenterOfMass]
    by_cases he : ps.isEmpty
    · rw [if_pos he]; exact h
    · rw [if_neg he]; exact h
  | internal b ps com m c0 c1 c2 c3 =>
    exact h

/-- Inserting a list of particles with pairwise-distinct positions into
a well-formed tree containing them (and already disjoint from its
stored positions) succeeds with enough fuel. -/
theorem insertAll_terminates : ∀ (ps : List Particle) (t : QuadTreeNode),
    WF t →
    (∀ q ∈ ps, t.boundary.contains q.position = true) →
    (∀ q ∈ ps, ∀ r ∈ t.content, r.position ≠ q.position) →
    ps.Pairwise (fun a b => a.position ≠ b.position) →
    ∃ fuel t2, QuadTreeNode.insertAll fuel t ps = some t2 := by
  intro ps
  induction ps with
  | nil =>
    intro t _ _ _ _
    exact ⟨0, t, rfl⟩
  | cons p rest ih =>
    intro t hwf hcont hdisj hpw
    obtain ⟨k, hk⟩ := sep_exists p t.content t.boundary.halfSize
      (fun q hq => hdisj p (by simp) q hq)
    obtain ⟨f, d, hf⟩ := insert_terminates k t p hwf (hcont p (by simp))
      (fun q hq => hdisj p (by simp) q hq) hk
    obtain ⟨gwf, gb, _, gtrue, _⟩ := (sound_bundle f).1 t p (d, true) hwf hf
    have hdc : d.content.Perm (p :: t.content) := gtrue rfl
    have hpwrest := (List.pairwise_cons.mp hpw).2
    have hphead := (List.pairwise_cons.mp hpw).1
    obtain ⟨f2, t2, h2⟩ := ih d gwf
      (fun q hq => by rw [show d.boundary = t.boundary from gb]
                      exact hcont q (by simp [hq]))
      (fun q hq r hr => by
        have hr2 : r ∈ p :: t.content := hdc.mem_iff.mp hr
        rcases List.mem_cons.mp hr2 with h | h
        · rw [h]
          exact hphead q hq
        · exact hdisj q (by simp [hq]) r h)
      hpwrest
    refine ⟨max f f2, t2, ?_⟩
    rw [QuadTreeNode.insertAll]
    rw [insert_mono (le_max_left f f2) t p (d, true) hf]
    exact insertAll_mono rest (le_max_right f f2) d t2 h2

/-- C10: `build` terminates on any particle list whose positions are
pairwise distinct and contained in the root boundary, producing a tree
whose every leaf respects `MAX_PARTICLES`. -/
theorem c10_build_terminates (b : Boundary) (ps : List Particle)
    (hb : 0 ≤ b.halfSize)
    (hcont : ∀ q ∈ ps, b.contains q.position = true)
    (hdist : ps.Pairwise (fun a b => a.position ≠ b.position)) :
    ∃ fuel t, QuadTreeNode.build fuel (emptyLeaf b) ps = some t ∧
      t.leavesSmall := by
  obtain ⟨fuel, t2, h2⟩ := insertAll_terminates ps (emptyLeaf b)
    (WF_emptyLeaf b hb) hcont (by simp [emptyLeaf, QuadTreeNode.content]) hdist
  obtain ⟨hwf2, _, _⟩ := insertAll_sound ps fuel (emptyLeaf b) t2
    (WF_emptyLeaf b hb) hcont h2
  refine ⟨fuel, t2.updateCenterOfMass, ?_, ?_⟩
  · rw [QuadTreeNode.build, h2]
    rfl
  · exact updateCoM_leavesSmall t2 (WF_leavesSmall t2 hwf2)

/-- Witness for C10 at a concrete input: two distinct particles in a
box of half-size 4. -/
theorem c10_build_terminates_witness :
    ∃ fuel t, QuadTreeNode.build fuel (emptyLeaf b0) [pA, pB] = some t ∧
      t.leavesSmall :=
  c10_build_terminates b0 [pA, pB]
    (by norm_num [b0])
    (by
      intro q hq
      rcases List.mem_cons.mp hq with h | h
      · rw [h]
        rw [Boundary.contains_iff]
        norm_num [b0, pA]
      · rw [List.mem_singleton.mp h]
        rw [Boundary.contains_iff]
        norm_num [b0, pB])
    (by
      refine List.Pairwise.cons ?_ (List.pairwise_singleton _ _)
      intro q hq
      rw [List.mem_singleton.mp hq]
      norm_num [pA, pB, Vec2.mk.injEq])
